import Mathlib

/-!
Verification of the semi-space copying garbage collector in `semi.h`.

The development is a shallow embedding in two layers:

* a numeric layer for the address arithmetic of the semi-space
  (`align_up`, `flip`, `semi_space_steal_pages`, the bump-allocation step,
  `initialize_semi_space`), where `uintptr_t`/`size_t` values are natural
  numbers and C unsigned subtraction is modelled explicitly modulo `2 ^ 64`;

* an object-graph layer for the Cheney collection algorithm
  (`forward`/`copy`/`scan`/`visit`/`collect`), where memory is a map from
  addresses to object cells and the header-word overloading (kind tag vs
  forwarding pointer) is an explicit sum.
-/

namespace Semi

/-- Width of the machine: `uintptr_t` and `size_t` arithmetic wraps modulo `W`. -/
def W : Nat := 2 ^ 64

/-- C unsigned subtraction `a - b` on `W`-bit operands (wraps on underflow). -/
def usub (a b : Nat) : Nat := (a % W + (W - b % W)) % W

theorem usub_of_le {a b : Nat} (hba : b ≤ a) (haW : a < W) : usub a b = a - b := by
  have hbW : b < W := lt_of_le_of_lt hba haW
  unfold usub
  rw [Nat.mod_eq_of_lt haW, Nat.mod_eq_of_lt hbW]
  have h : a + (W - b) = (a - b) + W := by omega
  rw [h, Nat.add_mod_right, Nat.mod_eq_of_lt (by omega)]

theorem usub_of_lt {a b : Nat} (hab : a < b) (hbW : b < W) : usub a b = a + W - b := by
  have haW : a < W := lt_trans hab hbW
  unfold usub
  rw [Nat.mod_eq_of_lt haW, Nat.mod_eq_of_lt hbW]
  have h1 : a + (W - b) < W := by omega
  rw [Nat.mod_eq_of_lt h1]
  omega

/-- `ALIGNMENT = 8` (semi.h line 41). -/
def ALIGNMENT : Nat := 8

/-- `align_up(addr, align) = (addr + align - 1) & ~(align - 1)` (semi.h line 43).
For the power-of-two `align` used in the code, masking off the low bits is
subtracting the remainder, so the function rounds up to a multiple of `align`.
(The `uintptr_t` addition cannot wrap at any call site we model, so the modulus
is omitted here.) -/
def align_up (addr align : Nat) : Nat := (addr + align - 1) - (addr + align - 1) % align

theorem align_up_div (addr : Nat) {align : Nat} (hal : 0 < align) :
    align_up addr align = align * ((addr + align - 1) / align) := by
  unfold align_up
  have h1 := Nat.mod_add_div (addr + align - 1) align
  omega

theorem align_up_le {addr align limit : Nat} (h : addr ≤ limit) (hal : 0 < align)
    (hlim : limit % align = 0) : align_up addr align ≤ limit := by
  rcases Nat.dvd_of_mod_eq_zero hlim with ⟨m, hm⟩
  rw [align_up_div addr hal, hm]
  have hlt : (addr + align - 1) / align < m + 1 := by
    rw [Nat.div_lt_iff_lt_mul hal]
    have h2 : (m + 1) * align = align * m + align := by ring
    omega
  exact Nat.mul_le_mul_left align (by omega)

theorem le_align_up (addr : Nat) {align : Nat} (hal : 0 < align) :
    addr ≤ align_up addr align := by
  unfold align_up
  have h1 : (addr + align - 1) % align < align := Nat.mod_lt _ hal
  omega

theorem align_up_eq_of_dvd {addr align : Nat} (hal : 0 < align) (h : addr % align = 0) :
    align_up addr align = addr := by
  rcases Nat.dvd_of_mod_eq_zero h with ⟨m, hm⟩
  subst hm
  rw [align_up_div _ hal]
  rcases Nat.eq_zero_or_pos m with h0 | hpos
  · subst h0
    have h1 : (align * 0 + align - 1) / align = 0 := Nat.div_eq_of_lt (by omega)
    rw [h1]
  · have h2 : align * m + align - 1 = align * m + (align - 1) := by
      have : 1 ≤ align * m := Nat.one_le_iff_ne_zero.mpr (by positivity)
      omega
    rw [h2, Nat.mul_add_div hal, Nat.div_eq_of_lt (by omega)]
    simp

/-- The state of `struct semi_space` (semi.h lines 11-17). -/
structure semi_space where
  hp : Nat
  limit : Nat
  base : Nat
  size : Nat
  count : Int
deriving DecidableEq

/-- Round a page count up to even: `if (npages & 1) npages++` (semi.h line 61). -/
def round_even (n : Nat) : Nat := if n % 2 = 1 then n + 1 else n

theorem round_even_even (n : Nat) : round_even n % 2 = 0 := by
  unfold round_even
  rcases Nat.mod_two_eq_zero_or_one n with h | h <;> simp [h] <;> omega

theorem round_even_le (n : Nat) : round_even n ≤ n + 1 := by
  unfold round_even; split <;> omega

/-- `semi_space_steal_pages` (semi.h lines 58-73): round `npages` up to even,
compute `half_size = (npages * page_size) >> 1`, fail when the free tospace
capacity `limit - hp` (unsigned) is below it, otherwise shrink `limit` by
`half_size`.  The two `madvise` calls release physical backing only and change
none of the space fields, so they have no effect in this model. -/
def semi_space_steal_pages (page_size : Nat) (space : semi_space) (npages : Nat) :
    Bool × semi_space :=
  if usub space.limit space.hp < round_even npages * page_size % W / 2 then (false, space)
  else (true, { space with
                limit := usub space.limit (round_even npages * page_size % W / 2) })

/-- `flip` (semi.h lines 75-85): make the other half the active tospace and
bump the generation counter. -/
def flip (space : semi_space) : semi_space :=
  let split := space.base + space.size / 2
  if space.hp ≤ split then
    { space with hp := split, limit := space.base + space.size, count := space.count + 1 }
  else
    { space with hp := space.base, limit := split, count := space.count + 1 }

/-- `initialize_semi_space` (semi.h lines 257-271) on the success path of
`mmap`; the address of the fresh mapping is the parameter `mem`.  The mutator
holding the space was allocated with `calloc`, so the fields are zero before
the routine stores `hp = base = mem`, `size`, `count = -1` and flips once. -/
def initialize_semi_space (mem size : Nat) : semi_space :=
  flip { hp := mem, limit := 0, base := mem, size := size, count := -1 }

/-- `LARGE_OBJECT_THRESHOLD` (semi.h line 190). -/
def LARGE_OBJECT_THRESHOLD : Nat := 8192

/-- The memory effects of a committed bump allocation in `allocate`
(semi.h lines 226-239): the returned address, the new `hp`, the header-word
store `*header_word = kind`, and the `clear_memory(addr + sizeof(uintptr_t),
size - sizeof(uintptr_t))` call, whose length argument is computed in
wrapping `size_t` arithmetic. -/
structure alloc_effects where
  addr : Nat
  new_hp : Nat
  header_addr : Nat
  header_val : Nat
  zero_start : Nat
  zero_len : Nat
deriving DecidableEq

/-- Outcome of one iteration of the `while (1)` loop in `allocate`. -/
inductive alloc_step_result where
  | fits (eff : alloc_effects)
  | needs_collect
deriving DecidableEq

/-- One iteration of the small-object path of `allocate` (semi.h lines 225-240):
compute `new_hp = align_up(addr + size, ALIGNMENT)`; if `limit < new_hp` a
collection is required (`collect_for_alloc`), otherwise commit the bump and
record the header store and the zeroing call. -/
def allocate_step (space : semi_space) (kind size : Nat) : alloc_step_result :=
  if space.limit < align_up (space.hp + size) ALIGNMENT then .needs_collect
  else .fits { addr := space.hp, new_hp := align_up (space.hp + size) ALIGNMENT,
               header_addr := space.hp, header_val := kind,
               zero_start := space.hp + 8, zero_len := usub size 8 }

/-- The `zero_len` effect of an allocation step, when it committed. -/
def zero_len_of : alloc_step_result → Option Nat
  | .fits eff => some eff.zero_len
  | .needs_collect => none

/-- Reading of the spec sentence "zero all bytes past the header word": a block
of `size` bytes has `size - 8` bytes past its one-word header (and none when
`size ≤ 8`).  Stated from the spec words, to be compared with the length the
code actually passes to `clear_memory`. -/
def spec_zero_len (size : Nat) : Nat := size - 8

/-- The capacity invariant of the semi-space (spec section 3). -/
def capacity_inv (space : semi_space) : Prop :=
  space.base ≤ space.hp ∧ space.hp ≤ space.limit ∧ space.limit ≤ space.base + space.size

instance (space : semi_space) : Decidable (capacity_inv space) := by
  unfold capacity_inv; infer_instance

/-- C10: after `initialize_semi_space` the active tospace is the upper half of
the mapping — `hp = base + size/2` and `limit = base + size` — and the
generation counter is `0`, because initialization stores `-1` and performs one
`flip`; `flip` always increments the counter, so the counter counts completed
collections, not total flips. -/
theorem c10_initial_state (mem size : Nat) :
    (initialize_semi_space mem size).hp = mem + size / 2 ∧
    (initialize_semi_space mem size).limit = mem + size ∧
    (initialize_semi_space mem size).base = mem ∧
    (initialize_semi_space mem size).size = size ∧
    (initialize_semi_space mem size).count = 0 ∧
    (∀ s : semi_space, (flip s).count = s.count + 1) := by
  refine ⟨?_, ?_, ?_, ?_, ?_, ?_⟩
  · simp [initialize_semi_space, flip]
  · simp [initialize_semi_space, flip]
  · simp [initialize_semi_space, flip]
  · simp [initialize_semi_space, flip]
  · simp [initialize_semi_space, flip]
  · intro s
    simp only [flip]
    split <;> rfl

/-- C5: `semi_space_steal_pages` rounds `npages` up to even, computes
`half_size = n_even/2 * page_size`, fails exactly when the free tospace
capacity `limit - hp` is smaller than `half_size` (leaving all fields
unchanged), and on success shrinks `limit` by exactly `half_size`, leaving
`hp`, `base` and `size` unchanged. -/
theorem c5_steal_pages (ps : Nat) (space : semi_space) (npages : Nat)
    (hhl : space.hp ≤ space.limit) (hlW : space.limit < W)
    (hpsW : round_even npages * ps < W) :
    ((semi_space_steal_pages ps space npages).1 = false ↔
       space.limit - space.hp < round_even npages / 2 * ps) ∧
    ((semi_space_steal_pages ps space npages).1 = false →
       (semi_space_steal_pages ps space npages).2 = space) ∧
    ((semi_space_steal_pages ps space npages).1 = true →
       (semi_space_steal_pages ps space npages).2.limit
           = space.limit - round_even npages / 2 * ps ∧
       (semi_space_steal_pages ps space npages).2.hp = space.hp ∧
       (semi_space_steal_pages ps space npages).2.base = space.base ∧
       (semi_space_steal_pages ps space npages).2.size = space.size) := by
  have heven : round_even npages % 2 = 0 := round_even_even npages
  have hhalf : round_even npages * ps % W / 2 = round_even npages / 2 * ps := by
    rw [Nat.mod_eq_of_lt hpsW]
    rcases Nat.dvd_of_mod_eq_zero heven with ⟨k, hk⟩
    rw [hk]
    have h1 : 2 * k * ps = 2 * (k * ps) := by ring
    rw [h1, Nat.mul_div_cancel_left _ (by norm_num), Nat.mul_div_cancel_left _ (by norm_num)]
  have hcap : usub space.limit space.hp = space.limit - space.hp := usub_of_le hhl hlW
  unfold semi_space_steal_pages
  rw [hhalf, hcap]
  by_cases hc : space.limit - space.hp < round_even npages / 2 * ps
  · rw [if_pos hc]
    exact ⟨⟨fun _ => hc, fun _ => rfl⟩, fun _ => rfl, fun h => Bool.noConfusion h⟩
  · rw [if_neg hc]
    have hle : round_even npages / 2 * ps ≤ space.limit := by omega
    exact ⟨⟨fun h => Bool.noConfusion h, fun h => absurd h hc⟩,
           fun h => Bool.noConfusion h,
           fun _ => ⟨usub_of_le hle hlW, rfl, rfl, rfl⟩⟩

/-- Witness for C5 at a concrete space: stealing 3 pages of 4096 bytes rounds
to 4 pages, `half_size = 8192`, and succeeds by shrinking `limit` alone. -/
theorem c5_steal_pages_witness :
    (semi_space_steal_pages 4096 ⟨8, 524288, 0, 1048576, 0⟩ 3).1 = true ∧
    (semi_space_steal_pages 4096 ⟨8, 524288, 0, 1048576, 0⟩ 3).2.limit = 524288 - 8192 ∧
    (semi_space_steal_pages 4096 ⟨8, 524288, 0, 1048576, 0⟩ 3).2.hp = 8 := by
  have h := c5_steal_pages 4096 ⟨8, 524288, 0, 1048576, 0⟩ 3
    (by decide) (by decide) (by decide)
  have hsucc : (semi_space_steal_pages 4096 ⟨8, 524288, 0, 1048576, 0⟩ 3).1 = true := by decide
  rcases h with ⟨_, _, h3⟩
  rcases h3 hsucc with ⟨hl, hh, _, _⟩
  refine ⟨hsucc, ?_, by rw [hh]⟩
  rw [hl]
  decide

/-- Counterexample to C4 as stated: stealing `n = 2` pages of 4096 bytes from a
space with ample free capacity succeeds and decreases `limit - hp` by 4096
bytes — one page, not the claimed `n * page_size = 8192`. -/
theorem c4_counterexample :
    (semi_space_steal_pages 4096 ⟨0, 524288, 0, 1048576, 0⟩ 2).1 = true ∧
    ((⟨0, 524288, 0, 1048576, 0⟩ : semi_space).limit
        - (⟨0, 524288, 0, 1048576, 0⟩ : semi_space).hp)
      - ((semi_space_steal_pages 4096 ⟨0, 524288, 0, 1048576, 0⟩ 2).2.limit
        - (semi_space_steal_pages 4096 ⟨0, 524288, 0, 1048576, 0⟩ 2).2.hp) = 4096 ∧
    (4096 : Nat) ≠ 2 * 4096 := by
  refine ⟨by decide, by decide, by decide⟩

/-- C4 (amended): after a successful `semi_space_steal_pages(space, n)` the
usable free capacity `limit - hp` has decreased by exactly
`(n rounded up to even) / 2 * page_size` — half of the even-rounded byte
count, because both mirrored halves shrink symmetrically and `limit` is a
bound on only the active half. -/
theorem c4_budget_conservation (ps : Nat) (space : semi_space) (npages : Nat)
    (hhl : space.hp ≤ space.limit) (hlW : space.limit < W)
    (hpsW : round_even npages * ps < W)
    (hsucc : (semi_space_steal_pages ps space npages).1 = true) :
    (space.limit - space.hp)
      - ((semi_space_steal_pages ps space npages).2.limit
        - (semi_space_steal_pages ps space npages).2.hp)
      = round_even npages / 2 * ps := by
  rcases c5_steal_pages ps space npages hhl hlW hpsW with ⟨hiff, _, h3⟩
  rcases h3 hsucc with ⟨hl, hh, _, _⟩
  rw [hl, hh]
  have hge : ¬ (space.limit - space.hp < round_even npages / 2 * ps) := by
    intro hc
    have := hiff.mpr hc
    rw [hsucc] at this
    exact Bool.noConfusion this
  omega

/-- Witness for C4 (amended) at a concrete space: a steal of 2 pages decreases
the free capacity by `2/2 * 4096 = 4096`. -/
theorem c4_budget_conservation_witness :
    ((⟨0, 524288, 0, 1048576, 0⟩ : semi_space).limit
        - (⟨0, 524288, 0, 1048576, 0⟩ : semi_space).hp)
      - ((semi_space_steal_pages 4096 ⟨0, 524288, 0, 1048576, 0⟩ 2).2.limit
        - (semi_space_steal_pages 4096 ⟨0, 524288, 0, 1048576, 0⟩ 2).2.hp)
      = round_even 2 / 2 * 4096 :=
  c4_budget_conservation 4096 ⟨0, 524288, 0, 1048576, 0⟩ 2
    (by decide) (by decide) (by decide) (by decide)

/-- C9: in the small path of `allocate` the length passed to the zeroing step
is `size - sizeof(uintptr_t)` in unsigned machine arithmetic: for `size ≥ 8`
it is exactly the `size - 8` bytes past the header word, but for `size < 8`
it wraps modulo `2^64` to `size + 2^64 - 8`, so the contract of zeroing
exactly the bytes past the header word holds only under the unstated
precondition `size ≥ 8`. -/
theorem c9_zero_len_underflow (space : semi_space) (kind size : Nat) (eff : alloc_effects)
    (hsmall : size < LARGE_OBJECT_THRESHOLD)
    (hfit : allocate_step space kind size = .fits eff) :
    (8 ≤ size → eff.zero_len = size - 8 ∧ eff.zero_len = spec_zero_len size) ∧
    (size < 8 → eff.zero_len = size + (W - 8) ∧ W - 8 ≤ eff.zero_len ∧
       eff.zero_len ≠ spec_zero_len size) := by
  have hW : size < W := by
    have : LARGE_OBJECT_THRESHOLD < W := by decide
    omega
  have hz : eff.zero_len = usub size 8 := by
    unfold allocate_step at hfit
    split at hfit
    · exact alloc_step_result.noConfusion hfit
    · cases hfit; rfl
  constructor
  · intro h8
    have : usub size 8 = size - 8 := usub_of_le h8 hW
    rw [hz, this]
    exact ⟨rfl, rfl⟩
  · intro h8
    have hWpos : (8 : Nat) < W := by decide
    have : usub size 8 = size + W - 8 := usub_of_lt h8 hWpos
    rw [hz, this]
    refine ⟨by omega, by omega, ?_⟩
    unfold spec_zero_len
    have : W - 8 > 0 := by decide
    omega

/-- Witness for C9 at `size = 0`: the zeroing length wraps to `2^64 - 8`. -/
theorem c9_zero_len_underflow_witness :
    (0 : Nat) < 8 ∧
    ∃ eff, allocate_step ⟨0, 524288, 0, 1048576, 0⟩ 1 0 = .fits eff ∧
      eff.zero_len = 0 + (W - 8) := by
  refine ⟨by decide, ⟨⟨0, 0, 0, 1, 8, usub 0 8⟩, ?_, ?_⟩⟩
  · rfl
  · have h := c9_zero_len_underflow ⟨0, 524288, 0, 1048576, 0⟩ 1 0
      ⟨0, 0, 0, 1, 8, usub 0 8⟩ (by decide) rfl
    exact (h.2 (by decide)).1

/-- Counterexample to C3 as stated: at `size = 0` the small path commits the
allocation, but the zeroing step is passed a wrapped length of `2^64 - 8`
bytes, not the `0` bytes that a `size`-byte block has past its header word —
the code does not zero (exactly) the bytes of the block past the header. -/
theorem c3_counterexample :
    zero_len_of (allocate_step ⟨0, 524288, 0, 1048576, 0⟩ 1 0) = some (W - 8) ∧
    W - 8 ≠ spec_zero_len 0 := by
  exact ⟨by decide, by decide⟩

/-- C3 (amended): for the small path of `allocate` under the precondition
`8 ≤ size < LARGE_OBJECT_THRESHOLD`: a collection is triggered exactly when
`align_up(hp + size)` exceeds `limit`; otherwise the pre-bump `hp` is
returned, `hp` is advanced to `align_up(hp + size)` (the size rounded up to
the 8-byte machine alignment), the header word of the block is set to `kind`,
and the zeroing step covers exactly the `size - 8` bytes of the block past
the header word. -/
theorem c3_allocate_contract (space : semi_space) (kind size : Nat)
    (h8 : 8 ≤ size) (hsmall : size < LARGE_OBJECT_THRESHOLD) :
    (allocate_step space kind size = .needs_collect ↔
       space.limit < align_up (space.hp + size) ALIGNMENT) ∧
    (∀ eff, allocate_step space kind size = .fits eff →
       align_up (space.hp + size) ALIGNMENT ≤ space.limit ∧
       eff.addr = space.hp ∧
       eff.new_hp = align_up (space.hp + size) ALIGNMENT ∧
       eff.header_addr = space.hp ∧
       eff.header_val = kind ∧
       eff.zero_start = space.hp + 8 ∧
       eff.zero_len = size - 8) := by
  have hW : size < W := by
    have : LARGE_OBJECT_THRESHOLD < W := by decide
    omega
  constructor
  · unfold allocate_step
    split
    · next hc => simpa using hc
    · next hc =>
      exact ⟨fun h => alloc_step_result.noConfusion h, fun h => absurd h hc⟩
  · intro eff hfit
    unfold allocate_step at hfit
    split at hfit
    · exact alloc_step_result.noConfusion hfit
    · next hc =>
      cases hfit
      refine ⟨by omega, rfl, rfl, rfl, rfl, rfl, usub_of_le h8 hW⟩

/-- Witness for C3 (amended) at a concrete allocation of 24 bytes. -/
theorem c3_allocate_contract_witness :
    allocate_step ⟨16, 524288, 0, 1048576, 0⟩ 1 24 = .fits ⟨16, 40, 16, 1, 24, 16⟩ ∧
    align_up (16 + 24) ALIGNMENT ≤ 524288 ∧
    (⟨16, 40, 16, 1, 24, 16⟩ : alloc_effects).zero_len = 24 - 8 := by
  have hfit : allocate_step ⟨16, 524288, 0, 1048576, 0⟩ 1 24 =
      .fits ⟨16, 40, 16, 1, 24, 16⟩ := by decide
  have h := (c3_allocate_contract ⟨16, 524288, 0, 1048576, 0⟩ 1 24
    (by decide) (by decide)).2 ⟨16, 40, 16, 1, 24, 16⟩ hfit
  exact ⟨hfit, h.1, h.2.2.2.2.2.2⟩

/-! ### Object-graph layer: the Cheney collection algorithm -/

/-- A heap object as laid out by the (external) per-kind object layout
collaborator.  Modelled from the spec: each kind supplies a size function and
a field visitor; an object is its kind tag, its outgoing reference fields
(null or an address each), and a count `pad` of further non-reference payload
words, so the per-kind size dispatch yields
`8 * (1 + fields.length + pad)` bytes (header word, fields, payload). -/
structure Obj where
  kind : Nat
  fields : List (Option Nat)
  pad : Nat
deriving DecidableEq

/-- The per-kind `name##_size` dispatch (modelled from the spec, see `Obj`). -/
def obj_size (o : Obj) : Nat := 8 * (1 + o.fields.length + o.pad)

theorem obj_size_pos (o : Obj) : 8 ≤ obj_size o := by
  unfold obj_size; omega

theorem align_up_obj_size (o : Obj) : align_up (obj_size o) ALIGNMENT = obj_size o := by
  apply align_up_eq_of_dvd (by decide)
  unfold obj_size ALIGNMENT
  omega

/-- The header word of a heap object, overloaded as either a kind tag (the
object not yet copied this cycle) or the address of its copy (semi.h lines
121-132).  The spec's tag/pointer disjointness invariant (section 3) makes
the two readings disjoint, so the C `switch` over the header word is this
sum.  A `fwd` cell stands for the whole broken heart; an `obj` cell for a
whole live object. -/
inductive Cell where
  | obj (o : Obj)
  | fwd (addr : Nat)
deriving DecidableEq

/-- Heap memory at object granularity: an address may hold the start of a
live object, a forwarding header, or nothing the collector may interpret. -/
def Mem := Nat → Option Cell

/-- A store to memory. -/
def Mem.set (m : Mem) (a : Nat) (c : Option Cell) : Mem :=
  fun x => if x = a then c else m x

theorem Mem.set_same (m : Mem) (a : Nat) (c : Option Cell) : m.set a c a = c := by
  unfold Mem.set; simp

theorem Mem.set_other (m : Mem) (a : Nat) (c : Option Cell) {x : Nat} (h : x ≠ a) :
    m.set a c x = m x := by
  unfold Mem.set; simp [h]

/-- Modelled from the spec: the state of the large-object space collaborator
(`large-object-space.h` is outside the modelled sources) — the current large
allocations (address, page count), the per-cycle mark set, and the live-page
count reported at the end of the last cycle. -/
structure large_object_space where
  objects : List (Nat × Nat)
  marked : List Nat
  live_pages_at_last_collection : Nat
deriving DecidableEq

/-- Modelled from the spec: address-range membership in the large-object
space. -/
def large_object_space_contains (ls : large_object_space) (p : Nat) : Bool :=
  ls.objects.any (fun pr => pr.1 == p)

/-- Modelled from the spec: `large_object_space_copy` marks the object live
this cycle and returns whether this was the first mark of the cycle. -/
def large_object_space_copy (ls : large_object_space) (p : Nat) :
    Bool × large_object_space :=
  if p ∈ ls.marked then (false, ls)
  else (true, { ls with marked := p :: ls.marked })

/-- Modelled from the spec: `start_gc` resets the per-cycle liveness marks. -/
def large_object_space_start_gc (ls : large_object_space) : large_object_space :=
  { ls with marked := [] }

/-- Modelled from the spec: `finish_gc` finalizes the liveness marks and
records the number of pages still live. -/
def large_object_space_finish_gc (ls : large_object_space) : large_object_space :=
  { ls with live_pages_at_last_collection :=
      ((ls.objects.filter (fun pr => ls.marked.contains pr.1)).map Prod.snd).sum }

/-- The fatal terminations of the collector and allocator, by diagnostic:
`heap_corruption` is the `abort()` for a reference into neither space
(semi.h line 160), `out_of_memory` the "ran out of space" aborts, and
`alloc_invariant` the distinguished "weird: we have the space but mmap
didn't work" abort. -/
inductive abort_kind where
  | heap_corruption
  | out_of_memory
  | alloc_invariant
deriving DecidableEq

/-- Outcome of a collector operation: a result, a fatal abort, or fuel
exhaustion of the model (the C code has no fuel; the termination theorem
shows a sufficient explicit fuel, making this case unreachable). -/
inductive GcResult (α : Type) where
  | ok (a : α)
  | abort (k : abort_kind)
  | out_of_fuel

/-- Whether a collector operation produced a result. -/
def GcResult.succeeded {α : Type} : GcResult α → Bool
  | .ok _ => true
  | _ => false

/-- The collector-visible heap state: semi-space bookkeeping, heap memory,
large-object space.  The mutator's root slots are passed separately since
`collect` only reads the chain and writes the slot values. -/
structure St where
  semi : semi_space
  mem : Mem
  large : large_object_space

/-- `semi_space_contains` (semi.h lines 146-148): the unsigned-wrap range
check `(obj - base) < size` equals `base ≤ obj < base + size` whenever
`base + size ≤ 2^64`, which holds for any real mapping. -/
def semi_space_contains (space : semi_space) (p : Nat) : Bool :=
  decide (space.base ≤ p ∧ p < space.base + space.size)

/-- `copy` (semi.h lines 87-104): write the object at the current `hp`
(`memcpy` before the header of the original is overwritten), store the
forwarding address into the original's header word, advance `hp` by the
aligned size, return the copy's address. -/
def copy (st : St) (o : Obj) (p : Nat) : Nat × St :=
  (st.semi.hp,
   { st with
     mem := (st.mem.set st.semi.hp (some (.obj o))).set p (some (.fwd st.semi.hp)),
     semi := { st.semi with hp := st.semi.hp + align_up (obj_size o) ALIGNMENT } })

/-- `forward` (semi.h lines 121-132): dispatch on the header word — a kind
tag means not yet copied, so copy; any other word already is the forwarding
address.  An address holding no interpretable header is the silent
heap-corruption hazard of the C code; the model makes it an error. -/
def forward (st : St) (p : Nat) : Option (Nat × St) :=
  match st.mem p with
  | some (.fwd w) => some (w, st)
  | some (.obj o) => some (copy st o p)
  | none => none

/-- Writing a forwarded value back through the field slot `i` of the object
at `a` (the `*loc = ...` store performed by `visit` through the per-kind
visitor's slot pointer). -/
def set_field (st : St) (a i : Nat) (w : Option Nat) : St :=
  match st.mem a with
  | some (.obj o) =>
    { st with mem := st.mem.set a (some (.obj { o with fields := o.fields.set i w })) }
  | _ => st

mutual
/-- `visit` (semi.h lines 150-161) on the value held in one slot: null is
ignored; a semi-space referent is forwarded and the new address returned for
the slot; a large-object referent is marked and, upon the first mark of the
cycle, scanned in place (its address is unchanged); an address in neither
space is fatal heap corruption.  The fuel argument only bounds the depth of
the model's recursion; every recursive call decrements it. -/
def visit : Nat → St → Option Nat → GcResult (Option Nat × St)
  | 0, _, _ => .out_of_fuel
  | _ + 1, st, none => .ok (none, st)
  | fuel + 1, st, some p =>
    if semi_space_contains st.semi p then
      match forward st p with
      | some (w, st1) => .ok (some w, st1)
      | none => .abort .heap_corruption
    else if large_object_space_contains st.large p then
      match large_object_space_copy st.large p with
      | (first, ls1) =>
        if first then
          match scan fuel { st with large := ls1 } p with
          | .ok (_, st2) => .ok (some p, st2)
          | .abort k => .abort k
          | .out_of_fuel => .out_of_fuel
        else .ok (some p, { st with large := ls1 })
    else .abort .heap_corruption

/-- `scan` (semi.h lines 106-119): read the kind at `grey`, let the per-kind
visitor visit every reference field of the object, then return `grey`
advanced past the object's aligned size (the size is read after the visits,
as in the expansion of the C macro). -/
def scan : Nat → St → Nat → GcResult (Nat × St)
  | 0, _, _ => .out_of_fuel
  | fuel + 1, st, grey =>
    match st.mem grey with
    | some (.obj o) =>
      match visit_fields fuel st grey 0 o.fields.length with
      | .ok st1 =>
        match st1.mem grey with
        | some (.obj o1) => .ok (grey + align_up (obj_size o1) ALIGNMENT, st1)
        | _ => .abort .heap_corruption
      | .abort k => .abort k
      | .out_of_fuel => .out_of_fuel
    | _ => .abort .heap_corruption

/-- Modelled from the spec: the per-kind `visit_##name##_fields` visitor
calls `visit` on each outgoing reference field of the object at `a` in
order (`rem` fields remaining from index `i`), writing each returned value
back through the field slot before moving on. -/
def visit_fields : Nat → St → Nat → Nat → Nat → GcResult St
  | 0, _, _, _, _ => .out_of_fuel
  | _ + 1, st, _, _, 0 => .ok st
  | fuel + 1, st, a, i, rem + 1 =>
    match st.mem a with
    | some (.obj o) =>
      match o.fields[i]? with
      | some v =>
        match visit fuel st v with
        | .ok (w, st1) => visit_fields fuel (set_field st1 a i w) a (i + 1) rem
        | .abort k => .abort k
        | .out_of_fuel => .out_of_fuel
      | none => .ok st
    | _ => .abort .heap_corruption
end

/-- The root-visiting loop of `collect` (semi.h lines 171-172): visit every
root slot in chain order, writing each forwarded value back into its slot.
Modelled from the spec: the root chain (precise-roots.h) is the list of the
slot values, iterated start to end. -/
def visit_roots (vfuel : Nat) (st : St) : List (Option Nat) → GcResult (List (Option Nat) × St)
  | [] => .ok ([], st)
  | v :: rest =>
    match visit vfuel st v with
    | .ok (w, st1) =>
      match visit_roots vfuel st1 rest with
      | .ok (ws, st2) => .ok (w :: ws, st2)
      | .abort k => .abort k
      | .out_of_fuel => .out_of_fuel
    | .abort k => .abort k
    | .out_of_fuel => .out_of_fuel

/-- The Cheney loop `while (grey < semi->hp) grey = scan(heap, grey)`
(semi.h lines 174-175); `lfuel` bounds the number of iterations in the
model. -/
def scan_loop (lfuel vfuel : Nat) (st : St) (grey : Nat) : GcResult St :=
  match lfuel with
  | 0 => .out_of_fuel
  | lfuel + 1 =>
    if grey < st.semi.hp then
      match scan vfuel st grey with
      | .ok (grey1, st1) => scan_loop lfuel vfuel st1 grey1
      | .abort k => .abort k
      | .out_of_fuel => .out_of_fuel
    else .ok st

/-- Modelled from the environment: `getpagesize()`. -/
def page_size : Nat := 4096

/-- `collect` (semi.h lines 163-179): start the large-object cycle, flip the
semi-space, seed the scan cursor `grey` at the new `hp`, forward every root,
drain the cursor up to `hp`, finish the large-object cycle, and
opportunistically return pages with `semi_space_steal_pages` for the pages
that stayed live in the large-object space (a failed steal is ignored). -/
def collect (lfuel vfuel : Nat) (roots : List (Option Nat)) (st : St) :
    GcResult (List (Option Nat) × St) :=
  match visit_roots vfuel
      { st with large := large_object_space_start_gc st.large, semi := flip st.semi }
      roots with
  | .ok (roots1, st2) =>
    match scan_loop lfuel vfuel st2 (flip st.semi).hp with
    | .ok st3 =>
      .ok (roots1,
        { st3 with
          large := large_object_space_finish_gc st3.large,
          semi := (semi_space_steal_pages page_size st3.semi
            (large_object_space_finish_gc st3.large).live_pages_at_last_collection).2 })
    | .abort k => .abort k
    | .out_of_fuel => .out_of_fuel
  | .abort k => .abort k
  | .out_of_fuel => .out_of_fuel

/-- `collect_for_alloc` (semi.h lines 181-188): run a full collection, then
abort fatally ("ran out of space") when the tospace still has fewer than
`bytes` bytes of free capacity. -/
def collect_for_alloc (lfuel vfuel : Nat) (roots : List (Option Nat)) (st : St)
    (bytes : Nat) : GcResult (List (Option Nat) × St) :=
  match collect lfuel vfuel roots st with
  | .ok (roots1, st1) =>
    if usub st1.semi.limit st1.semi.hp < bytes then .abort .out_of_memory
    else .ok (roots1, st1)
  | .abort k => .abort k
  | .out_of_fuel => .out_of_fuel

/-- Modelled from the spec: `large_object_space_npages` converts a byte size
to the number of pages needed. -/
def large_object_space_npages (size : Nat) : Nat := (size + page_size - 1) / page_size

/-- The header store `*(uintptr_t*)ret = kind` on freshly acquired pages;
the model also registers the new object with the large-object space
(modelled from the spec — the object's reference fields are established
later by the mutator). -/
def write_large_header (st : St) (ret kind npages : Nat) : St :=
  { st with
    mem := st.mem.set ret (some (.obj { kind := kind, fields := [], pad := 0 })),
    large := { st.large with objects := (ret, npages) :: st.large.objects } }

/-- The tail of `allocate_large` (semi.h lines 206-216) once the page budget
is secured: try the fast reuse path, fall back to the slow acquisition path;
both failing despite the reserved budget is the distinguished fatal
condition; otherwise store the kind into the header and return.  The two
paths (`large_object_space_alloc`, `large_object_space_obtain_and_alloc`)
are modelled from the spec as oracles from a page count to an address or
null. -/
def allocate_large_pages (alloc_fast alloc_slow : Nat → Option Nat)
    (roots : List (Option Nat)) (st : St) (kind npages : Nat) :
    GcResult (Nat × List (Option Nat) × St) :=
  match alloc_fast npages with
  | some ret => .ok (ret, roots, write_large_header st ret kind npages)
  | none =>
    match alloc_slow npages with
    | some ret => .ok (ret, roots, write_large_header st ret kind npages)
    | none => .abort .alloc_invariant

/-- `allocate_large` (semi.h lines 191-217): convert the size to a page
count, steal that budget from the semi-space; on refusal run a full
collection and retry the steal exactly once, aborting ("ran out of space")
on a second refusal; then acquire the pages, fast path first. -/
def allocate_large (lfuel vfuel : Nat) (alloc_fast alloc_slow : Nat → Option Nat)
    (roots : List (Option Nat)) (st : St) (kind size : Nat) :
    GcResult (Nat × List (Option Nat) × St) :=
  match semi_space_steal_pages page_size st.semi (large_object_space_npages size) with
  | (true, semi1) =>
    allocate_large_pages alloc_fast alloc_slow roots { st with semi := semi1 } kind
      (large_object_space_npages size)
  | (false, _) =>
    match collect lfuel vfuel roots st with
    | .ok (roots1, st1) =>
      match semi_space_steal_pages page_size st1.semi (large_object_space_npages size) with
      | (true, semi2) =>
        allocate_large_pages alloc_fast alloc_slow roots1 { st1 with semi := semi2 } kind
          (large_object_space_npages size)
      | (false, _) => .abort .out_of_memory
    | .abort k => .abort k
    | .out_of_fuel => .out_of_fuel

/-! ### The collection invariant -/

/-- The static population of one collection cycle: the candidate fromspace
object addresses `L`, the large objects (address, page count), and a bound
`M` on the number of reference fields of any object of the cycle. -/
structure Geo where
  L : List Nat
  larges : List (Nat × Nat)
  M : Nat

/-- The addresses of the large objects. -/
def Geo.largeAddrs (G : Geo) : List Nat := G.larges.map Prod.fst

/-- A slot value the collector may encounter before forwarding: null, a
fromspace object of the population, or a large object. -/
def wf_val (G : Geo) (v : Option Nat) : Prop :=
  match v with
  | none => True
  | some p => p ∈ G.L ∨ p ∈ G.largeAddrs

instance wf_val_dec (G : Geo) (v : Option Nat) : Decidable (wf_val G v) := by
  cases v with
  | none => exact isTrue trivial
  | some p => exact inferInstanceAs (Decidable (p ∈ G.L ∨ p ∈ G.largeAddrs))

/-- Number of large objects not yet marked this cycle. -/
def unmarked_count (st : St) : Nat :=
  (st.large.objects.filter (fun pr => ! decide (pr.1 ∈ st.large.marked))).length

/-- Whether the header at `a` still holds a not-yet-forwarded object. -/
def is_obj (st : St) (a : Nat) : Bool :=
  match st.mem a with
  | some (.obj _) => true
  | _ => false

/-- Number of not-yet-forwarded objects among the population `L`. -/
def unforwarded_count (L : List Nat) (st : St) : Nat :=
  (L.filter (is_obj st)).length

/-- The bytes the header at `a` still accounts for: the size of the
not-yet-forwarded object there, and nothing once it is forwarded. -/
def cell_bytes (st : St) (a : Nat) : Nat :=
  match st.mem a with
  | some (.obj o) => obj_size o
  | _ => 0

/-- Total byte size of the not-yet-forwarded objects of `L`. -/
def from_bytes (L : List Nat) (st : St) : Nat :=
  (L.map (cell_bytes st)).sum

theorem from_bytes_cons (b : Nat) (t : List Nat) (st : St) :
    from_bytes (b :: t) st = cell_bytes st b + from_bytes t st := by
  unfold from_bytes
  simp

theorem count_mono {α : Type} {L : List α} {f g : α → Bool}
    (h : ∀ x ∈ L, g x = true → f x = true) :
    (L.filter g).length ≤ (L.filter f).length := by
  induction L with
  | nil => simp
  | cons b t ih =>
    have ht := ih (fun x hx => h x (List.mem_cons_of_mem _ hx))
    by_cases hg : g b = true
    · rw [List.filter_cons_of_pos hg, List.filter_cons_of_pos (h b (List.mem_cons_self _ _) hg)]
      simpa using ht
    · rw [List.filter_cons_of_neg (by simpa using hg)]
      by_cases hf : f b = true
      · rw [List.filter_cons_of_pos hf]
        simp only [List.length_cons]
        omega
      · rw [List.filter_cons_of_neg (by simpa using hf)]
        exact ht

theorem count_lt {α : Type} {L : List α} {f g : α → Bool}
    (h : ∀ x ∈ L, g x = true → f x = true)
    {y : α} (hy : y ∈ L) (hfy : f y = true) (hgy : g y = false) :
    (L.filter g).length < (L.filter f).length := by
  induction L with
  | nil => cases hy
  | cons b t ih =>
    have hmono := count_mono (fun x hx => h x (List.mem_cons_of_mem _ hx))
    rcases List.mem_cons.mp hy with rfl | hyt
    · rw [List.filter_cons_of_pos hfy, List.filter_cons_of_neg (by simp [hgy])]
      simp only [List.length_cons]
      exact Nat.lt_succ_of_le hmono
    · have hlt := ih (fun x hx => h x (List.mem_cons_of_mem _ hx)) hyt
      by_cases hg : g b = true
      · rw [List.filter_cons_of_pos hg, List.filter_cons_of_pos (h b (List.mem_cons_self _ _) hg)]
        simpa using hlt
      · rw [List.filter_cons_of_neg (by simpa using hg)]
        by_cases hf : f b = true
        · rw [List.filter_cons_of_pos hf]
          simp only [List.length_cons]
          omega
        · rw [List.filter_cons_of_neg (by simpa using hf)]
          exact hlt

theorem from_bytes_congr {L : List Nat} {st st1 : St}
    (h : ∀ a ∈ L, st1.mem a = st.mem a) : from_bytes L st1 = from_bytes L st := by
  unfold from_bytes
  congr 1
  apply List.map_congr_left
  intro a ha
  unfold cell_bytes
  rw [h a ha]

theorem unforwarded_congr {L : List Nat} {st st1 : St}
    (h : ∀ a ∈ L, st1.mem a = st.mem a) :
    unforwarded_count L st1 = unforwarded_count L st := by
  unfold unforwarded_count
  congr 1
  apply List.filter_congr
  intro a ha
  unfold is_obj
  rw [h a ha]

/-- Forwarding one object of the population: the byte account of the
unforwarded fromspace objects drops by exactly that object's size. -/
theorem from_bytes_update {L : List Nat} (hn : L.Nodup) {st st1 : St} {p : Nat}
    (hp : p ∈ L) (hmem : ∀ x ∈ L, x ≠ p → st1.mem x = st.mem x)
    {o : Obj} (hco : st.mem p = some (.obj o)) {w : Nat}
    (hc1 : st1.mem p = some (.fwd w)) :
    from_bytes L st1 + obj_size o = from_bytes L st := by
  induction L with
  | nil => cases hp
  | cons b t ih =>
    obtain ⟨hbt, hnt⟩ := List.nodup_cons.mp hn
    rw [from_bytes_cons, from_bytes_cons]
    rcases List.mem_cons.mp hp with rfl | hpt
    · have hb1 : cell_bytes st p = obj_size o := by
        unfold cell_bytes
        rw [hco]
      have hb2 : cell_bytes st1 p = 0 := by
        unfold cell_bytes
        rw [hc1]
      rw [hb1, hb2]
      have htt : from_bytes t st1 = from_bytes t st := by
        apply from_bytes_congr
        intro x hx
        exact hmem x (List.mem_cons_of_mem _ hx) (fun he => hbt (he ▸ hx))
      omega
    · have hbp : b ≠ p := fun he => hbt (he ▸ hpt)
      have hbb : cell_bytes st1 b = cell_bytes st b := by
        unfold cell_bytes
        rw [hmem b (List.mem_cons_self _ _) hbp]
      rw [hbb]
      have := ih hnt hpt (fun x hx => hmem x (List.mem_cons_of_mem _ hx))
      omega

/-- Forwarding one object of the population: the count of unforwarded
fromspace objects drops by exactly one. -/
theorem unforwarded_update {L : List Nat} (hn : L.Nodup) {st st1 : St} {p : Nat}
    (hp : p ∈ L) (hmem : ∀ x ∈ L, x ≠ p → st1.mem x = st.mem x)
    {o : Obj} (hco : st.mem p = some (.obj o)) {w : Nat}
    (hc1 : st1.mem p = some (.fwd w)) :
    unforwarded_count L st1 + 1 = unforwarded_count L st := by
  induction L with
  | nil => cases hp
  | cons b t ih =>
    obtain ⟨hbt, hnt⟩ := List.nodup_cons.mp hn
    unfold unforwarded_count
    rcases List.mem_cons.mp hp with rfl | hpt
    · have hi1 : is_obj st p = true := by
        unfold is_obj
        rw [hco]
      have hi2 : ¬ is_obj st1 p = true := by
        unfold is_obj
        rw [hc1]
        simp
      rw [List.filter_cons_of_pos hi1, List.filter_cons_of_neg hi2]
      have htt : unforwarded_count t st1 = unforwarded_count t st := by
        apply unforwarded_congr
        intro x hx
        exact hmem x (List.mem_cons_of_mem _ hx) (fun he => hbt (he ▸ hx))
      unfold unforwarded_count at htt
      simp only [List.length_cons]
      omega
    · have hbp : b ≠ p := fun he => hbt (he ▸ hpt)
      have hhead : is_obj st1 b = is_obj st b := by
        unfold is_obj
        rw [hmem b (List.mem_cons_self _ _) hbp]
      have := ih hnt hpt (fun x hx => hmem x (List.mem_cons_of_mem _ hx))
      unfold unforwarded_count at this
      by_cases hb : is_obj st b = true
      · rw [List.filter_cons_of_pos (hhead.trans hb), List.filter_cons_of_pos hb]
        simp only [List.length_cons]
        omega
      · rw [List.filter_cons_of_neg (by rw [hhead]; simpa using hb),
            List.filter_cons_of_neg (by simpa using hb)]
        exact this

/-- The midpoint of the mapping: the boundary of the two halves. -/
def split_of (sp : semi_space) : Nat := sp.base + sp.size / 2

/-- `n` objects copied contiguously into `[lo, hi)`: each starts with an
object header whose reference fields hold only well-formed unforwarded
values (at most `G.M` of them), and abuts the next. -/
inductive Layout (G : Geo) (st : St) : Nat → Nat → Nat → Prop where
  | nil (a : Nat) : Layout G st a a 0
  | cons {a hi n : Nat} (o : Obj) :
      st.mem a = some (.obj o) →
      (∀ v ∈ o.fields, wf_val G v) →
      o.fields.length ≤ G.M →
      Layout G st (a + obj_size o) hi n →
      Layout G st a hi (n + 1)

theorem Layout.le_of {G : Geo} {st : St} {lo hi n : Nat} (h : Layout G st lo hi n) :
    lo ≤ hi := by
  induction h with
  | nil => exact le_refl _
  | cons o hc hwf hlen htail ih =>
    have := obj_size_pos o
    omega

theorem Layout.eq_of_zero {G : Geo} {st : St} {lo hi : Nat} (h : Layout G st lo hi 0) :
    lo = hi := by
  cases h
  rfl

theorem Layout.append {G : Geo} {st : St} {lo mid n : Nat}
    (h1 : Layout G st lo mid n) :
    ∀ {hi m : Nat}, Layout G st mid hi m → Layout G st lo hi (n + m) := by
  induction h1 with
  | nil =>
    intro hi m h2
    simpa using h2
  | @cons a mid' n' o hc hwf hlen htail ih =>
    intro hi m h2
    have hstep := Layout.cons o hc hwf hlen (ih h2)
    have he : n' + m + 1 = n' + 1 + m := by omega
    exact he ▸ hstep

theorem Layout.stable {G : Geo} {st st1 : St} {lo hi n : Nat}
    (h : Layout G st lo hi n)
    (hmem : ∀ x, lo ≤ x → x < hi → st1.mem x = st.mem x) :
    Layout G st1 lo hi n := by
  induction h with
  | nil => exact Layout.nil _
  | cons o hc hwf hlen htail ih =>
    next a hi' n' =>
    have hsz := obj_size_pos o
    have hle := htail.le_of
    refine Layout.cons o ?_ hwf hlen (ih ?_)
    · rw [hmem a (le_refl _) (by omega)]
      exact hc
    · intro x hx1 hx2
      exact hmem x (by omega) hx2

/-- The collection invariant over the population `G`, holding from the flip
to the end of the scan loop. -/
structure Inv (G : Geo) (st : St) : Prop where
  nodupL : G.L.Nodup
  Lrange : ∀ a ∈ G.L, st.semi.base ≤ a ∧ a < split_of st.semi
  Lcell : ∀ a ∈ G.L, st.mem a ≠ none
  Lwf : ∀ a ∈ G.L, ∀ o, st.mem a = some (.obj o) →
      (∀ v ∈ o.fields, wf_val G v) ∧ o.fields.length ≤ G.M
  fwd_range : ∀ a ∈ G.L, ∀ w, st.mem a = some (.fwd w) →
      split_of st.semi ≤ w ∧ w < st.semi.hp
  hp_ge : split_of st.semi ≤ st.semi.hp
  larges_eq : st.large.objects = G.larges
  large_low : ∀ p ∈ G.largeAddrs, p < st.semi.base
  large_cell : ∀ p ∈ G.largeAddrs, ∃ o, st.mem p = some (.obj o) ∧
      o.fields.length ≤ G.M ∧
      (p ∉ st.large.marked → ∀ v ∈ o.fields, wf_val G v)

/-- The chainable facts relating the state before and after any collector
step: installed forwarding pointers persist, the semi-space changes only by
`hp` growing, the large-object population is fixed and marks only grow, and
`hp` grows exactly by the bytes of the fromspace objects that got copied
(the memoization that makes the scan terminate). -/
structure Step (G : Geo) (st st1 : St) : Prop where
  fwd_stable : ∀ a ∈ G.L, ∀ w, st.mem a = some (.fwd w) → st1.mem a = some (.fwd w)
  base_eq : st1.semi.base = st.semi.base
  size_eq : st1.semi.size = st.semi.size
  limit_eq : st1.semi.limit = st.semi.limit
  count_eq : st1.semi.count = st.semi.count
  hp_mono : st.semi.hp ≤ st1.semi.hp
  larges_eq : st1.large.objects = st.large.objects
  marks_mono : ∀ m ∈ st.large.marked, m ∈ st1.large.marked
  potential : st1.semi.hp + from_bytes G.L st1 = st.semi.hp + from_bytes G.L st

theorem step_refl (G : Geo) (st : St) : Step G st st :=
  ⟨fun _ _ _ h => h, rfl, rfl, rfl, rfl, le_refl _, rfl, fun _ hm => hm, rfl⟩

theorem step_trans {G : Geo} {st st1 st2 : St} (h1 : Step G st st1) (h2 : Step G st1 st2) :
    Step G st st2 := by
  refine ⟨fun a ha w hw => h2.fwd_stable a ha w (h1.fwd_stable a ha w hw),
    h2.base_eq.trans h1.base_eq, h2.size_eq.trans h1.size_eq,
    h2.limit_eq.trans h1.limit_eq, h2.count_eq.trans h1.count_eq,
    le_trans h1.hp_mono h2.hp_mono, h2.larges_eq.trans h1.larges_eq,
    fun m hm => h2.marks_mono m (h1.marks_mono m hm), ?_⟩
  have := h1.potential
  have := h2.potential
  omega

theorem Step.unmarked_mono {G : Geo} {st st1 : St} (h : Step G st st1) :
    unmarked_count st1 ≤ unmarked_count st := by
  unfold unmarked_count
  rw [h.larges_eq]
  apply count_mono
  intro pr _ hg
  simp only [Bool.not_eq_true', decide_eq_false_iff_not] at hg ⊢
  intro hmem
  exact hg (h.marks_mono _ hmem)

theorem Step.split_eq {G : Geo} {st st1 : St} (h : Step G st st1) :
    split_of st1.semi = split_of st.semi := by
  unfold split_of
  rw [h.base_eq, h.size_eq]

/-- The memory is untouched outside the exceptions `E`, the fromspace
headers, the large objects marked during the step, and the fresh copies. -/
def mem_outside (G : Geo) (E : Nat → Prop) (st st1 : St) : Prop :=
  ∀ x, ¬ E x → x ∉ G.L → (x ∈ G.largeAddrs → x ∈ st.large.marked) →
    (x < st.semi.hp ∨ st1.semi.hp ≤ x) → st1.mem x = st.mem x

theorem mem_outside_refl (G : Geo) (E : Nat → Prop) (st : St) : mem_outside G E st st :=
  fun _ _ _ _ _ => rfl

theorem mem_outside_mono {G : Geo} {E E1 : Nat → Prop} {st st1 : St}
    (h : mem_outside G E st st1) (hE : ∀ x, E x → E1 x) : mem_outside G E1 st st1 :=
  fun x hx => h x (fun he => hx (hE x he))

theorem mem_outside_trans {G : Geo} {E1 E2 : Nat → Prop} {st st1 st2 : St}
    (h1 : mem_outside G E1 st st1) (h2 : mem_outside G E2 st1 st2)
    (hhp1 : st.semi.hp ≤ st1.semi.hp) (hhp2 : st1.semi.hp ≤ st2.semi.hp)
    (hmk : ∀ m ∈ st.large.marked, m ∈ st1.large.marked) :
    mem_outside G (fun x => E1 x ∨ E2 x) st st2 := by
  intro x hE hL hLa hw
  have h2x : st2.mem x = st1.mem x := by
    apply h2 x (fun he => hE (Or.inr he)) hL (fun ha => hmk x (hLa ha))
    rcases hw with hlt | hge
    · exact Or.inl (by omega)
    · exact Or.inr hge
  have h1x : st1.mem x = st.mem x := by
    apply h1 x (fun he => hE (Or.inl he)) hL hLa
    rcases hw with hlt | hge
    · exact Or.inl hlt
    · exact Or.inr (by omega)
  rw [h2x, h1x]

/-- The copies appended at `hp` during a step form a layout, and each took
one fromspace object from unforwarded to forwarded. -/
def new_copies (G : Geo) (st st1 : St) : Prop :=
  ∃ k, Layout G st1 st.semi.hp st1.semi.hp k ∧
    unforwarded_count G.L st1 + k = unforwarded_count G.L st

theorem new_copies_refl (G : Geo) (st : St) : new_copies G st st :=
  ⟨0, Layout.nil _, by omega⟩

theorem new_copies_trans {G : Geo} {E2 : Nat → Prop} {st st1 st2 : St}
    (hInv : Inv G st)
    (hn1 : new_copies G st st1) (hn2 : new_copies G st1 st2)
    (hmo2 : mem_outside G E2 st1 st2) (hE2 : ∀ x, E2 x → x < st.semi.hp) :
    new_copies G st st2 := by
  obtain ⟨k1, hl1, hc1⟩ := hn1
  obtain ⟨k2, hl2, hc2⟩ := hn2
  refine ⟨k1 + k2, ?_, by omega⟩
  refine Layout.append (Layout.stable hl1 ?_) hl2
  intro x hx1 hx2
  refine hmo2 x ?_ ?_ ?_ ?_
  · intro he
    exact absurd (hE2 x he) (by omega)
  · intro hxL
    have := (hInv.Lrange x hxL).2
    have := hInv.hp_ge
    omega
  · intro hxLa
    have := hInv.large_low x hxLa
    have : st.semi.base ≤ split_of st.semi := by unfold split_of; omega
    have := hInv.hp_ge
    omega
  · exact Or.inl hx2

/-- Containment bridging: a fromspace object of the population is inside the
semi-space range. -/
theorem semi_contains_of_L {G : Geo} {st : St} (hInv : Inv G st) {a : Nat} (ha : a ∈ G.L) :
    semi_space_contains st.semi a = true := by
  unfold semi_space_contains
  obtain ⟨h1, h2⟩ := hInv.Lrange a ha
  have : split_of st.semi ≤ st.semi.base + st.semi.size := by
    unfold split_of
    omega
  simp only [decide_eq_true_eq]
  unfold split_of at h2
  exact ⟨h1, by omega⟩

/-- Containment bridging: a large object is below the semi-space range. -/
theorem semi_contains_not_of_large {G : Geo} {st : St} (hInv : Inv G st) {p : Nat}
    (hp : p ∈ G.largeAddrs) : semi_space_contains st.semi p = false := by
  unfold semi_space_contains
  have := hInv.large_low p hp
  simp only [decide_eq_false_iff_not]
  omega

theorem large_contains_iff {G : Geo} {st : St} (hInv : Inv G st) (p : Nat) :
    large_object_space_contains st.large p = true ↔ p ∈ G.largeAddrs := by
  unfold large_object_space_contains Geo.largeAddrs
  rw [hInv.larges_eq]
  simp only [List.any_eq_true, beq_iff_eq, List.mem_map]

theorem L_large_disjoint {G : Geo} {st : St} (hInv : Inv G st) {a : Nat}
    (ha : a ∈ G.L) : a ∉ G.largeAddrs := by
  intro hla
  have h1 := (hInv.Lrange a ha).1
  have h2 := hInv.large_low a hla
  omega

/-! ### Specifications of the atomic collector steps -/

theorem copy_mem_at (st : St) (o : Obj) (p x : Nat) :
    (copy st o p).2.mem x =
      if x = p then some (.fwd st.semi.hp)
      else if x = st.semi.hp then some (.obj o) else st.mem x := by
  unfold copy Mem.set
  rfl

theorem copy_semi (st : St) (o : Obj) (p : Nat) :
    (copy st o p).2.semi = { st.semi with hp := st.semi.hp + obj_size o } := by
  unfold copy
  simp only
  rw [align_up_obj_size]

theorem copy_large (st : St) (o : Obj) (p : Nat) : (copy st o p).2.large = st.large := rfl

/-- What `forward` does to a fromspace object of the population: it
returns a tospace address, installs (or reuses) the forwarding header at the
original, preserves the collection invariant, copies at most once, and
changes no memory outside the original's header and the fresh copy. -/
theorem forward_spec {G : Geo} {st : St} {p : Nat} (hInv : Inv G st) (hp : p ∈ G.L) :
    ∃ w st1, forward st p = some (w, st1) ∧ Step G st st1 ∧ Inv G st1 ∧
      mem_outside G (fun _ => False) st st1 ∧ new_copies G st st1 ∧
      st1.mem p = some (.fwd w) ∧ split_of st1.semi ≤ w ∧ w < st1.semi.hp := by
  have hpr := hInv.Lrange p hp
  have hge := hInv.hp_ge
  cases hc : st.mem p with
  | none => exact absurd hc (hInv.Lcell p hp)
  | some c =>
    cases c with
    | fwd w =>
      refine ⟨w, st, ?_, step_refl G st, hInv, mem_outside_refl _ _ _,
        new_copies_refl _ _, hc, (hInv.fwd_range p hp w hc).1, (hInv.fwd_range p hp w hc).2⟩
      unfold forward
      rw [hc]
    | obj o =>
      have hs8 : 8 ≤ obj_size o := obj_size_pos o
      have hpne : p ≠ st.semi.hp := by omega
      have hwfo := hInv.Lwf p hp o hc
      have hbase : (copy st o p).2.semi.base = st.semi.base := by rw [copy_semi]
      have hsize : (copy st o p).2.semi.size = st.semi.size := by rw [copy_semi]
      have hlimit : (copy st o p).2.semi.limit = st.semi.limit := by rw [copy_semi]
      have hcount : (copy st o p).2.semi.count = st.semi.count := by rw [copy_semi]
      have hhp : (copy st o p).2.semi.hp = st.semi.hp + obj_size o := by rw [copy_semi]
      have hsp : split_of (copy st o p).2.semi = split_of st.semi := by
        unfold split_of
        rw [hbase, hsize]
      have hmemL : ∀ x ∈ G.L, x ≠ p → (copy st o p).2.mem x = st.mem x := by
        intro x hx hxp
        have hxhp : x ≠ st.semi.hp := by
          have := (hInv.Lrange x hx).2
          omega
        rw [copy_mem_at, if_neg hxp, if_neg hxhp]
      have hmemp : (copy st o p).2.mem p = some (.fwd st.semi.hp) := by
        rw [copy_mem_at, if_pos rfl]
      have hmemhp : (copy st o p).2.mem st.semi.hp = some (.obj o) := by
        rw [copy_mem_at, if_neg (Ne.symm hpne), if_pos rfl]
      refine ⟨st.semi.hp, (copy st o p).2, ?_, ?_, ?_, ?_, ?_, hmemp, ?_, ?_⟩
      · unfold forward
        rw [hc]
        rfl
      · -- Step
        refine ⟨?_, hbase, hsize, hlimit, hcount, by rw [hhp]; omega,
          by rw [copy_large], by rw [copy_large]; exact fun _ hm => hm, ?_⟩
        · intro a ha w' hw'
          have hap : a ≠ p := fun he => by rw [he, hc] at hw'; cases hw'
          rw [hmemL a ha hap]
          exact hw'
        · rw [hhp]
          have := from_bytes_update hInv.nodupL hp hmemL hc hmemp
          omega
      · -- Inv
        refine ⟨hInv.nodupL, ?_, ?_, ?_, ?_, ?_, ?_, ?_, ?_⟩
        · intro a ha
          rw [hbase, hsp]
          exact hInv.Lrange a ha
        · intro a ha
          by_cases hap : a = p
          · subst hap
            rw [hmemp]
            exact fun h => by cases h
          · rw [hmemL a ha hap]
            exact hInv.Lcell a ha
        · intro a ha o' ho'
          by_cases hap : a = p
          · subst hap
            rw [hmemp] at ho'
            cases ho'
          · rw [hmemL a ha hap] at ho'
            exact hInv.Lwf a ha o' ho'
        · intro a ha w' hw'
          rw [hsp, hhp]
          by_cases hap : a = p
          · subst hap
            rw [hmemp] at hw'
            cases hw'
            omega
          · rw [hmemL a ha hap] at hw'
            have := hInv.fwd_range a ha w' hw'
            omega
        · rw [hsp, hhp]
          omega
        · rw [copy_large]
          exact hInv.larges_eq
        · intro q hq
          rw [hbase]
          exact hInv.large_low q hq
        · intro q hq
          obtain ⟨oq, hoq, hlen, hwfq⟩ := hInv.large_cell q hq
          have hqlow := hInv.large_low q hq
          have hqp : q ≠ p := by
            have := hpr.1
            omega
          have hqhp : q ≠ st.semi.hp := by
            have hble : st.semi.base ≤ split_of st.semi := by
              unfold split_of
              omega
            omega
          refine ⟨oq, ?_, hlen, ?_⟩
          · rw [copy_mem_at, if_neg hqp, if_neg hqhp]
            exact hoq
          · rw [copy_large]
            exact hwfq
      · -- mem_outside
        intro x _ hxL _ hw
        have hxp : x ≠ p := fun he => hxL (he ▸ hp)
        have hxhp : x ≠ st.semi.hp := by
          rw [hhp] at hw
          omega
        rw [copy_mem_at, if_neg hxp, if_neg hxhp]
      · -- new_copies
        refine ⟨1, ?_, ?_⟩
        · have hl : Layout G (copy st o p).2 st.semi.hp (st.semi.hp + obj_size o) 1 :=
            Layout.cons o hmemhp hwfo.1 hwfo.2 (Layout.nil _)
          rw [hhp]
          exact hl
        · exact unforwarded_update hInv.nodupL hp hmemL hc hmemp
      · rw [hsp]
        exact hge
      · rw [hhp]
        omega


/-- Marking a large object: the first mark strictly decreases the number of
unmarked large objects and changes nothing else. -/
theorem mark_spec {G : Geo} {st : St} {p : Nat} (hInv : Inv G st)
    (hp : p ∈ G.largeAddrs) (hunm : p ∉ st.large.marked) :
    large_object_space_copy st.large p =
      (true, { st.large with marked := p :: st.large.marked }) ∧
    Step G st { st with large := { st.large with marked := p :: st.large.marked } } ∧
    Inv G { st with large := { st.large with marked := p :: st.large.marked } } ∧
    unmarked_count { st with large := { st.large with marked := p :: st.large.marked } }
      < unmarked_count st := by
  refine ⟨?_, ?_, ?_, ?_⟩
  · unfold large_object_space_copy
    rw [if_neg hunm]
  · exact ⟨fun _ _ _ h => h, rfl, rfl, rfl, rfl, le_refl _, rfl,
      fun m hm => List.mem_cons_of_mem _ hm, rfl⟩
  · refine ⟨hInv.nodupL, hInv.Lrange, hInv.Lcell, hInv.Lwf, hInv.fwd_range, hInv.hp_ge,
      hInv.larges_eq, hInv.large_low, ?_⟩
    intro q hq
    obtain ⟨oq, hoq, hlen, hwfq⟩ := hInv.large_cell q hq
    refine ⟨oq, hoq, hlen, fun hm => hwfq (fun hin => hm (List.mem_cons_of_mem _ hin))⟩
  · unfold unmarked_count
    have hpobj : ∃ pr ∈ st.large.objects, pr.1 = p := by
      unfold Geo.largeAddrs at hp
      rw [← hInv.larges_eq] at hp
      obtain ⟨pr, hpr, he⟩ := List.mem_map.mp hp
      exact ⟨pr, hpr, he⟩
    obtain ⟨pr, hpr, he⟩ := hpobj
    refine count_lt ?_ hpr ?_ ?_
    · intro x _ hg
      simp only [Bool.not_eq_true', decide_eq_false_iff_not] at hg ⊢
      intro hmem
      exact hg (List.mem_cons_of_mem _ hmem)
    · simp only [Bool.not_eq_true', decide_eq_false_iff_not]
      rw [he]
      exact hunm
    · simp only [Bool.not_eq_true']
      rw [he]
      simp

/-- Writing one forwarded value back through a field slot of a scanned
object: it preserves the invariant and changes nothing but that object's
field vector. -/
theorem set_field_spec {G : Geo} {st : St} {a : Nat} (i : Nat) (w : Option Nat)
    (hInv : Inv G st)
    (haL : a ∉ G.L) (hahp : a < st.semi.hp)
    (haM : a ∈ G.largeAddrs → a ∈ st.large.marked) :
    Step G st (set_field st a i w) ∧ Inv G (set_field st a i w) ∧
    mem_outside G (fun x => x = a) st (set_field st a i w) ∧
    new_copies G st (set_field st a i w) ∧
    (∀ o, st.mem a = some (.obj o) →
      (set_field st a i w).mem a = some (.obj { o with fields := o.fields.set i w })) ∧
    (set_field st a i w).semi = st.semi ∧ (set_field st a i w).large = st.large := by
  cases hc : st.mem a with
  | none =>
    have he : set_field st a i w = st := by
      unfold set_field
      rw [hc]
    rw [he]
    exact ⟨step_refl G st, hInv, mem_outside_refl _ _ _, new_copies_refl _ _,
      fun o ho => absurd ho (by simp), rfl, rfl⟩
  | some c =>
    cases c with
    | fwd q =>
      have he : set_field st a i w = st := by
        unfold set_field
        rw [hc]
      rw [he]
      exact ⟨step_refl G st, hInv, mem_outside_refl _ _ _, new_copies_refl _ _,
        fun o ho => absurd ho (by simp), rfl, rfl⟩
    | obj o =>
      have he : set_field st a i w =
          { st with mem := st.mem.set a (some (.obj { o with fields := o.fields.set i w })) } := by
        unfold set_field
        rw [hc]
      rw [he]
      have hmx : ∀ x, ({ st with
            mem := st.mem.set a (some (.obj { o with fields := o.fields.set i w })) } : St).mem x =
          if x = a then some (.obj { o with fields := o.fields.set i w }) else st.mem x := by
        intro x
        unfold Mem.set
        rfl
      have hLmem : ∀ x ∈ G.L, ({ st with
            mem := st.mem.set a (some (.obj { o with fields := o.fields.set i w })) } : St).mem x
          = st.mem x := by
        intro x hx
        have hxa : x ≠ a := fun hxe => haL (hxe ▸ hx)
        rw [hmx, if_neg hxa]
      refine ⟨?_, ?_, ?_, ?_, ?_, rfl, rfl⟩
      · refine ⟨?_, rfl, rfl, rfl, rfl, le_refl _, rfl, fun _ hm => hm, ?_⟩
        · intro x hx w' hw'
          rw [hLmem x hx]
          exact hw'
        · rw [from_bytes_congr hLmem]
      · refine ⟨hInv.nodupL, hInv.Lrange, ?_, ?_, ?_, hInv.hp_ge,
          hInv.larges_eq, hInv.large_low, ?_⟩
        · intro x hx
          rw [hLmem x hx]
          exact hInv.Lcell x hx
        · intro x hx o' ho'
          rw [hLmem x hx] at ho'
          exact hInv.Lwf x hx o' ho'
        · intro x hx w' hw'
          rw [hLmem x hx] at hw'
          exact hInv.fwd_range x hx w' hw'
        · intro q hq
          obtain ⟨oq, hoq, hlen, hwfq⟩ := hInv.large_cell q hq
          by_cases hqa : q = a
          · subst hqa
            have hoo : oq = o := by
              rw [hc] at hoq
              injection hoq with h3
              injection h3 with h4
              exact h4.symm
            subst hoo
            refine ⟨{ oq with fields := oq.fields.set i w }, ?_, ?_, ?_⟩
            · rw [hmx, if_pos rfl]
            · simpa using hlen
            · intro hm
              exact absurd (haM hq) hm
          · refine ⟨oq, ?_, hlen, hwfq⟩
            rw [hmx, if_neg hqa]
            exact hoq
      · intro x hxa _ _ _
        rw [hmx, if_neg hxa]
      · refine ⟨0, Layout.nil _, ?_⟩
        have := unforwarded_congr hLmem
        omega
      · intro o' ho'
        have hoo : o = o' := by
          injection ho' with h3
          injection h3
        subst hoo
        rw [hmx, if_pos rfl]


/-! ### The master preservation and fuel-sufficiency lemmas -/

/-- Specification of a `visit` outcome: on success the invariant and chain
facts hold and nothing outside the collector working set moved; abort is
unreachable; fuel can only run out below the stated bound. -/
def visit_post (G : Geo) (st : St) (fuel : Nat) : GcResult (Option Nat × St) → Prop
  | .ok pr => Step G st pr.2 ∧ Inv G pr.2 ∧
      mem_outside G (fun _ => False) st pr.2 ∧ new_copies G st pr.2
  | .abort _ => False
  | .out_of_fuel => (G.M + 3) * unmarked_count st < fuel → False

/-- Specification of a `scan` outcome at a scanned object address `a`. -/
def scan_post (G : Geo) (st : St) (a fuel : Nat) : GcResult (Nat × St) → Prop
  | .ok pr => Step G st pr.2 ∧ Inv G pr.2 ∧
      mem_outside G (fun x => x = a) st pr.2 ∧ new_copies G st pr.2 ∧
      (∀ o, st.mem a = some (.obj o) → pr.1 = a + obj_size o ∧
        ∃ o1, pr.2.mem a = some (.obj o1) ∧ obj_size o1 = obj_size o)
  | .abort _ => False
  | .out_of_fuel => (G.M + 3) * unmarked_count st + G.M + 2 < fuel → False

/-- Specification of a `visit_fields` outcome at the object address `a`. -/
def fields_post (G : Geo) (st : St) (a fuel rem : Nat) : GcResult St → Prop
  | .ok st1 => Step G st st1 ∧ Inv G st1 ∧
      mem_outside G (fun x => x = a) st st1 ∧ new_copies G st st1 ∧
      (∀ o, st.mem a = some (.obj o) → ∃ o1, st1.mem a = some (.obj o1) ∧
        o1.fields.length = o.fields.length ∧ o1.kind = o.kind ∧ o1.pad = o.pad)
  | .abort _ => False
  | .out_of_fuel => rem + (G.M + 3) * unmarked_count st + 1 < fuel → False

/-- All `visit` calls at a given fuel meet their specification. -/
def VStmt (G : Geo) (fuel : Nat) : Prop :=
  ∀ st v, Inv G st → wf_val G v → visit_post G st fuel (visit fuel st v)

/-- All `scan` calls at a given fuel meet their specification, when aimed at
a well-formed object outside the fromspace population whose address is below
`hp` and, if large, already marked. -/
def SStmt (G : Geo) (fuel : Nat) : Prop :=
  ∀ st a, Inv G st → a ∉ G.L → a < st.semi.hp →
    (a ∈ G.largeAddrs → a ∈ st.large.marked) →
    (∃ o, st.mem a = some (.obj o) ∧ (∀ v ∈ o.fields, wf_val G v) ∧
      o.fields.length ≤ G.M) →
    scan_post G st a fuel (scan fuel st a)

/-- All `visit_fields` calls at a given fuel meet their specification. -/
def FStmt (G : Geo) (fuel : Nat) : Prop :=
  ∀ rem st a i, Inv G st → a ∉ G.L → a < st.semi.hp →
    (a ∈ G.largeAddrs → a ∈ st.large.marked) →
    (∃ o, st.mem a = some (.obj o)) →
    (∀ o, st.mem a = some (.obj o) → ∀ j v, i ≤ j → o.fields[j]? = some v → wf_val G v) →
    fields_post G st a fuel rem (visit_fields fuel st a i rem)

theorem visit_succ (G : Geo) (fuel : Nat) (ihS : SStmt G fuel) : VStmt G (fuel + 1) := by
  intro st v hInv hwf
  cases v with
  | none =>
    exact ⟨step_refl G st, hInv, mem_outside_refl _ _ _, new_copies_refl _ _⟩
  | some p =>
    by_cases hsemi : semi_space_contains st.semi p = true
    · -- forwarded in the semi-space
      have hpL : p ∈ G.L := by
        rcases hwf with hL | hLa
        · exact hL
        · rw [semi_contains_not_of_large hInv hLa] at hsemi
          cases hsemi
      obtain ⟨w, st1, hfwd, hstep, hInv1, hmo, hnc, hmem1, hw1, hw2⟩ := forward_spec hInv hpL
      have hres : visit (fuel + 1) st (some p) = .ok (some w, st1) := by
        unfold visit
        rw [if_pos hsemi, hfwd]
      rw [hres]
      exact ⟨hstep, hInv1, hmo, hnc⟩
    · by_cases hlarge : large_object_space_contains st.large p = true
      · have hpLa : p ∈ G.largeAddrs := (large_contains_iff hInv p).mp hlarge
        by_cases hmk : p ∈ st.large.marked
        · -- already marked this cycle: no scan
          have hcopy : large_object_space_copy st.large p = (false, st.large) := by
            unfold large_object_space_copy
            rw [if_pos hmk]
          have hres : visit (fuel + 1) st (some p) = .ok (some p, st) := by
            unfold visit
            rw [if_neg hsemi, if_pos hlarge, hcopy]
            rfl
          rw [hres]
          exact ⟨step_refl G st, hInv, mem_outside_refl _ _ _, new_copies_refl _ _⟩
        · -- first mark of the cycle: mark, then scan in place
          obtain ⟨hcopy, hstepm, hInvm, hUm⟩ := mark_spec hInv hpLa hmk
          have hpnL : p ∉ G.L := by
            intro hin
            have h1 := hInv.large_low p hpLa
            have h2 := (hInv.Lrange p hin).1
            omega
          have hblow : st.semi.base ≤ split_of st.semi := by
            unfold split_of
            omega
          have hphp : p <
              ({ st with large := { st.large with marked := p :: st.large.marked } } : St).semi.hp := by
            have h1 := hInv.large_low p hpLa
            have h2 := hInv.hp_ge
            simp only
            omega
          obtain ⟨o, hco, hlen, hwfo⟩ := hInv.large_cell p hpLa
          have hpost := ihS { st with large := { st.large with marked := p :: st.large.marked } }
            p hInvm hpnL hphp (fun _ => List.mem_cons_self _ _)
            ⟨o, hco, hwfo hmk, hlen⟩
          cases hscan : scan fuel
              { st with large := { st.large with marked := p :: st.large.marked } } p with
          | ok pr =>
            obtain ⟨g1, st2⟩ := pr
            rw [hscan] at hpost
            simp only [scan_post] at hpost
            obtain ⟨hstep2, hInv2, hmo2, hnc2, hrest⟩ := hpost
            have hres : visit (fuel + 1) st (some p) = .ok (some p, st2) := by
              unfold visit
              rw [if_neg hsemi, if_pos hlarge, hcopy]
              simp only
              rw [hscan]
              rfl
            rw [hres]
            have hncm : new_copies G st
                { semi := st.semi, mem := st.mem,
                  large := { objects := st.large.objects,
                             marked := p :: st.large.marked,
                             live_pages_at_last_collection :=
                               st.large.live_pages_at_last_collection } } :=
              ⟨0, Layout.nil _, rfl⟩
            refine ⟨step_trans hstepm hstep2, hInv2, ?_, ?_⟩
            · intro x hxF hxL hxMk hw
              have hxp : x ≠ p := fun he => hmk (he ▸ hxMk (he ▸ hpLa))
              exact hmo2 x hxp hxL
                (fun ha => List.mem_cons_of_mem _ (hxMk ha)) hw
            · refine new_copies_trans hInv hncm hnc2 hmo2 ?_
              intro x he
              subst he
              have h1 := hInv.large_low x hpLa
              have h2 := hInv.hp_ge
              have h3 : st.semi.base ≤ split_of st.semi := by
                unfold split_of
                omega
              omega
          | abort k =>
            rw [hscan] at hpost
            exact hpost.elim
          | out_of_fuel =>
            rw [hscan] at hpost
            simp only [scan_post] at hpost
            have hres : visit (fuel + 1) st (some p) = .out_of_fuel := by
              unfold visit
              rw [if_neg hsemi, if_pos hlarge, hcopy]
              simp only
              rw [hscan]
              rfl
            rw [hres]
            intro hbound
            apply hpost
            have hU1le : unmarked_count
                { semi := st.semi, mem := st.mem,
                  large := { objects := st.large.objects,
                             marked := p :: st.large.marked,
                             live_pages_at_last_collection :=
                               st.large.live_pages_at_last_collection } } + 1
                ≤ unmarked_count st := hUm
            have hmul : (G.M + 3) * (unmarked_count
                { semi := st.semi, mem := st.mem,
                  large := { objects := st.large.objects,
                             marked := p :: st.large.marked,
                             live_pages_at_last_collection :=
                               st.large.live_pages_at_last_collection } } + 1)
                ≤ (G.M + 3) * unmarked_count st :=
              Nat.mul_le_mul_left _ hU1le
            have hexp : (G.M + 3) * (unmarked_count
                { semi := st.semi, mem := st.mem,
                  large := { objects := st.large.objects,
                             marked := p :: st.large.marked,
                             live_pages_at_last_collection :=
                               st.large.live_pages_at_last_collection } } + 1)
                = (G.M + 3) * unmarked_count
                  { semi := st.semi, mem := st.mem,
                    large := { objects := st.large.objects,
                               marked := p :: st.large.marked,
                               live_pages_at_last_collection :=
                                 st.large.live_pages_at_last_collection } }
                  + (G.M + 3) := by ring
            omega
      · rcases hwf with hL | hLa
        · exact absurd (semi_contains_of_L hInv hL) hsemi
        · exact absurd ((large_contains_iff hInv p).mpr hLa) hlarge


theorem fields_succ (G : Geo) (fuel : Nat) (ihV : VStmt G fuel) (ihF : FStmt G fuel) :
    FStmt G (fuel + 1) := by
  intro rem st a i hInv haL hahp haM hex hwf
  cases rem with
  | zero =>
    exact ⟨step_refl G st, hInv, mem_outside_refl _ _ _, new_copies_refl _ _,
      fun o ho => ⟨o, ho, rfl, rfl, rfl⟩⟩
  | succ rem =>
    obtain ⟨o, ho⟩ := hex
    cases hfv : o.fields[i]? with
    | none =>
      have hres : visit_fields (fuel + 1) st a i (rem + 1) = .ok st := by
        simp only [visit_fields, ho, hfv]
      rw [hres]
      exact ⟨step_refl G st, hInv, mem_outside_refl _ _ _, new_copies_refl _ _,
        fun o' ho' => ⟨o', ho', rfl, rfl, rfl⟩⟩
    | some v =>
      have hwfv : wf_val G v := hwf o ho i v (le_refl _) hfv
      have hpostV := ihV st v hInv hwfv
      cases hv : visit fuel st v with
      | abort k =>
        rw [hv] at hpostV
        simp only [visit_post] at hpostV
      | out_of_fuel =>
        rw [hv] at hpostV
        simp only [visit_post] at hpostV
        have hres : visit_fields (fuel + 1) st a i (rem + 1) = .out_of_fuel := by
          simp only [visit_fields, ho, hfv, hv]
        rw [hres]
        simp only [fields_post]
        intro hbound
        exact hpostV (by omega)
      | ok pr =>
        obtain ⟨w1, st1⟩ := pr
        rw [hv] at hpostV
        simp only [visit_post] at hpostV
        obtain ⟨hstep1, hInv1, hmo1, hnc1⟩ := hpostV
        have hmema1 : st1.mem a = st.mem a := hmo1 a (fun f => f) haL haM (Or.inl hahp)
        have ha1hp : a < st1.semi.hp := lt_of_lt_of_le hahp hstep1.hp_mono
        have haM1 : a ∈ G.largeAddrs → a ∈ st1.large.marked :=
          fun h => hstep1.marks_mono a (haM h)
        obtain ⟨hstep2, hInv2, hmo2, hnc2, hcell2, hsemi2, hlarge2⟩ :=
          set_field_spec i w1 hInv1 haL ha1hp haM1
        have ho1 : st1.mem a = some (.obj o) := hmema1.trans ho
        have hcell2o := hcell2 o ho1
        have ha2hp : a < (set_field st1 a i w1).semi.hp := by
          rw [hsemi2]
          exact ha1hp
        have haM2 : a ∈ G.largeAddrs → a ∈ (set_field st1 a i w1).large.marked := by
          rw [hlarge2]
          exact haM1
        have hex2 : ∃ o2, (set_field st1 a i w1).mem a = some (.obj o2) := ⟨_, hcell2o⟩
        have hwf2 : ∀ o2, (set_field st1 a i w1).mem a = some (.obj o2) →
            ∀ j v', i + 1 ≤ j → o2.fields[j]? = some v' → wf_val G v' := by
          intro o2 ho2 j v' hij hjv
          have ho2e : o2 = { o with fields := o.fields.set i w1 } := by
            rw [hcell2o] at ho2
            injection ho2 with h3
            injection h3 with h4
            exact h4.symm
          subst ho2e
          rw [show ({ o with fields := o.fields.set i w1 } : Obj).fields
              = o.fields.set i w1 from rfl] at hjv
          rw [List.getElem?_set_ne (by omega)] at hjv
          exact hwf o ho j v' (by omega) hjv
        have hpostF := ihF rem (set_field st1 a i w1) a (i + 1) hInv2 haL ha2hp haM2 hex2 hwf2
        cases hrec : visit_fields fuel (set_field st1 a i w1) a (i + 1) rem with
        | ok st3 =>
          rw [hrec] at hpostF
          simp only [fields_post] at hpostF
          obtain ⟨hstep3, hInv3, hmo3, hnc3, hcell3⟩ := hpostF
          have hres : visit_fields (fuel + 1) st a i (rem + 1) = .ok st3 := by
            simp only [visit_fields, ho, hfv, hv, hrec]
          rw [hres]
          simp only [fields_post]
          refine ⟨step_trans hstep1 (step_trans hstep2 hstep3), hInv3, ?_, ?_, ?_⟩
          · have h12 := mem_outside_trans hmo1 hmo2 hstep1.hp_mono hstep2.hp_mono
              hstep1.marks_mono
            have h123 := mem_outside_trans h12 hmo3
              (le_trans hstep1.hp_mono hstep2.hp_mono) hstep3.hp_mono
              (fun m hm => hstep2.marks_mono m (hstep1.marks_mono m hm))
            refine mem_outside_mono h123 ?_
            intro x hx
            rcases hx with hF | h
            · rcases hF with hF | h
              · exact hF.elim
              · exact h
            · exact h
          · have hn12 := new_copies_trans hInv hnc1 hnc2 hmo2
              (fun x he => by subst he; exact hahp)
            exact new_copies_trans hInv hn12 hnc3 hmo3
              (fun x he => by subst he; exact hahp)
          · intro o' ho'
            have hoo : o' = o := by
              rw [ho] at ho'
              injection ho' with h3
              injection h3 with h4
              exact h4.symm
            subst hoo
            obtain ⟨o3, ho3, hlen3, hkind3, hpad3⟩ := hcell3 _ hcell2o
            refine ⟨o3, ho3, ?_, hkind3, hpad3⟩
            rw [hlen3]
            exact List.length_set o'.fields i w1
        | abort k =>
          rw [hrec] at hpostF
          simp only [fields_post] at hpostF
        | out_of_fuel =>
          rw [hrec] at hpostF
          simp only [fields_post] at hpostF
          have hres : visit_fields (fuel + 1) st a i (rem + 1) = .out_of_fuel := by
            simp only [visit_fields, ho, hfv, hv, hrec]
          rw [hres]
          simp only [fields_post]
          intro hbound
          apply hpostF
          have hU2 : unmarked_count (set_field st1 a i w1) ≤ unmarked_count st := by
            have h1 := hstep1.unmarked_mono
            have h2 := hstep2.unmarked_mono
            omega
          have hmul : (G.M + 3) * unmarked_count (set_field st1 a i w1)
              ≤ (G.M + 3) * unmarked_count st :=
            Nat.mul_le_mul_left _ hU2
          omega


theorem scan_succ (G : Geo) (fuel : Nat) (ihF : FStmt G fuel) : SStmt G (fuel + 1) := by
  intro st a hInv haL hahp haM hex
  obtain ⟨o, ho, hwfo, hlen⟩ := hex
  have hwfall : ∀ o', st.mem a = some (.obj o') →
      ∀ j v, 0 ≤ j → o'.fields[j]? = some v → wf_val G v := by
    intro o' ho' j v _ hjv
    have hoo : o' = o := by
      rw [ho] at ho'
      injection ho' with h3
      injection h3 with h4
      exact h4.symm
    subst hoo
    refine hwfo v ?_
    obtain ⟨hj, he⟩ := List.getElem?_eq_some.mp hjv
    exact he ▸ List.getElem_mem hj
  have hpostF := ihF o.fields.length st a 0 hInv haL hahp haM ⟨o, ho⟩ hwfall
  cases hrec : visit_fields fuel st a 0 o.fields.length with
  | ok st1 =>
    rw [hrec] at hpostF
    simp only [fields_post] at hpostF
    obtain ⟨hstep1, hInv1, hmo1, hnc1, hcell1⟩ := hpostF
    obtain ⟨o1, ho1, hlen1, hkind1, hpad1⟩ := hcell1 o ho
    have hsz : obj_size o1 = obj_size o := by
      unfold obj_size
      rw [hlen1, hpad1]
    have hres : scan (fuel + 1) st a = .ok (a + align_up (obj_size o1) ALIGNMENT, st1) := by
      simp only [scan, ho, hrec, ho1]
    rw [hres]
    simp only [scan_post]
    refine ⟨hstep1, hInv1, hmo1, hnc1, ?_⟩
    intro o' ho'
    have hoo : o' = o := by
      rw [ho] at ho'
      injection ho' with h3
      injection h3 with h4
      exact h4.symm
    subst hoo
    refine ⟨?_, o1, ho1, by rw [hsz]⟩
    rw [align_up_obj_size, hsz]
  | abort k =>
    rw [hrec] at hpostF
    simp only [fields_post] at hpostF
  | out_of_fuel =>
    rw [hrec] at hpostF
    simp only [fields_post] at hpostF
    have hres : scan (fuel + 1) st a = .out_of_fuel := by
      simp only [scan, ho, hrec]
    rw [hres]
    simp only [scan_post]
    intro hbound
    apply hpostF
    omega

/-- Every fuel level meets all three specifications. -/
theorem gc_masters (G : Geo) : ∀ fuel, VStmt G fuel ∧ SStmt G fuel ∧ FStmt G fuel := by
  intro fuel
  induction fuel with
  | zero =>
    refine ⟨?_, ?_, ?_⟩
    · intro st v hInv hwf
      simp only [visit, visit_post]
      intro h
      exact absurd h (Nat.not_lt_zero _)
    · intro st a hInv h1 h2 h3 h4
      simp only [scan, scan_post]
      intro h
      exact absurd h (Nat.not_lt_zero _)
    · intro rem st a i hInv h1 h2 h3 h4 h5
      simp only [visit_fields, fields_post]
      intro h
      exact absurd h (Nat.not_lt_zero _)
  | succ fuel ih =>
    exact ⟨visit_succ G fuel ih.2.1, scan_succ G fuel ih.2.2, fields_succ G fuel ih.1 ih.2.2⟩

/-- Specification of the Cheney scan loop: given that the copied objects tile
`[grey, hp)`, the loop preserves the invariant and terminates within
`unforwarded + unscanned` iterations (one fromspace object copied or one grey
object scanned per unit of work — the bound of the spec). -/
def loop_post (G : Geo) (st : St) (lfuel vfuel n : Nat) : GcResult St → Prop
  | .ok st1 => Step G st st1 ∧ Inv G st1
  | .abort _ => False
  | .out_of_fuel =>
      (unforwarded_count G.L st + n < lfuel ∧
        (G.M + 3) * unmarked_count st + G.M + 2 < vfuel) → False

theorem scan_loop_spec (G : Geo) (vfuel : Nat) :
    ∀ lfuel st grey n, Inv G st → Layout G st grey st.semi.hp n →
      split_of st.semi ≤ grey →
      loop_post G st lfuel vfuel n (scan_loop lfuel vfuel st grey) := by
  intro lfuel
  induction lfuel with
  | zero =>
    intro st grey n hInv hlay hge
    simp only [scan_loop, loop_post]
    intro hcond
    exact absurd hcond.1 (Nat.not_lt_zero _)
  | succ lfuel ih =>
    intro st grey n hInv hlay hge
    by_cases hlt : grey < st.semi.hp
    · cases hlay with
      | nil => exact absurd hlt (lt_irrefl _)
      | @cons _ _ n' o hc hwfo hlen htail =>
        have hgL : grey ∉ G.L := by
          intro hin
          have := (hInv.Lrange grey hin).2
          omega
        have hblow : st.semi.base ≤ split_of st.semi := by
          unfold split_of
          omega
        have hgMk : grey ∈ G.largeAddrs → grey ∈ st.large.marked := by
          intro hla
          have h1 := hInv.large_low grey hla
          exact absurd h1 (by omega)
        have hpost := (gc_masters G vfuel).2.1 st grey hInv hgL hlt hgMk ⟨o, hc, hwfo, hlen⟩
        cases hscan : scan vfuel st grey with
        | ok pr =>
          obtain ⟨g1, st1⟩ := pr
          rw [hscan] at hpost
          simp only [scan_post] at hpost
          obtain ⟨hstep1, hInv1, hmo1, hnc1, hg1⟩ := hpost
          obtain ⟨hg1e, o1, ho1, hsz1⟩ := hg1 o hc
          obtain ⟨k, hlnew, hcnt⟩ := hnc1
          have hsz8 := obj_size_pos o
          have htail1 : Layout G st1 (grey + obj_size o) st.semi.hp n' := by
            refine Layout.stable htail ?_
            intro x hx1 hx2
            refine hmo1 x ?_ ?_ ?_ ?_
            · intro he
              omega
            · intro hin
              have := (hInv.Lrange x hin).2
              omega
            · intro hla
              have := hInv.large_low x hla
              exact absurd this (by omega)
            · exact Or.inl hx2
          have hlay1 : Layout G st1 g1 st1.semi.hp (n' + k) := by
            rw [hg1e]
            exact Layout.append htail1 hlnew
          have hge1 : split_of st1.semi ≤ g1 := by
            rw [hstep1.split_eq, hg1e]
            omega
          have hpostL := ih st1 g1 (n' + k) hInv1 hlay1 hge1
          cases hloop : scan_loop lfuel vfuel st1 g1 with
          | ok st2 =>
            rw [hloop] at hpostL
            simp only [loop_post] at hpostL
            obtain ⟨hstep2, hInv2⟩ := hpostL
            have hres : scan_loop (lfuel + 1) vfuel st grey = .ok st2 := by
              simp only [scan_loop, if_pos hlt, hscan, hloop]
            rw [hres]
            simp only [loop_post]
            exact ⟨step_trans hstep1 hstep2, hInv2⟩
          | abort k2 =>
            rw [hloop] at hpostL
            simp only [loop_post] at hpostL
          | out_of_fuel =>
            rw [hloop] at hpostL
            simp only [loop_post] at hpostL
            have hres : scan_loop (lfuel + 1) vfuel st grey = .out_of_fuel := by
              simp only [scan_loop, if_pos hlt, hscan, hloop]
            rw [hres]
            simp only [loop_post]
            intro hcond
            apply hpostL
            constructor
            · omega
            · have hUm := hstep1.unmarked_mono
              have hmul : (G.M + 3) * unmarked_count st1 ≤ (G.M + 3) * unmarked_count st :=
                Nat.mul_le_mul_left _ hUm
              omega
        | abort k2 =>
          rw [hscan] at hpost
          simp only [scan_post] at hpost
        | out_of_fuel =>
          rw [hscan] at hpost
          simp only [scan_post] at hpost
          have hres : scan_loop (lfuel + 1) vfuel st grey = .out_of_fuel := by
            simp only [scan_loop, if_pos hlt, hscan]
          rw [hres]
          simp only [loop_post]
          intro hcond
          exact hpost hcond.2
    · have hres : scan_loop (lfuel + 1) vfuel st grey = .ok st := by
        simp only [scan_loop, if_neg hlt]
      rw [hres]
      simp only [loop_post]
      exact ⟨step_refl G st, hInv⟩


/-- The value a successful `visit` leaves in the slot: null stays null, a
population object's slot receives the address recorded in its forwarding
header, and a large object's address is unchanged. -/
theorem visit_val {G : Geo} {fuel : Nat} {st : St} {v w : Option Nat} {st1 : St}
    (hInv : Inv G st) (hwf : wf_val G v)
    (h : visit fuel st v = .ok (w, st1)) :
    (v = none → w = none) ∧
    (∀ q, v = some q → q ∈ G.L → ∃ u, w = some u ∧ st1.mem q = some (.fwd u)) ∧
    (∀ q, v = some q → q ∉ G.L → w = some q) := by
  cases fuel with
  | zero => cases h
  | succ fuel =>
    cases v with
    | none =>
      simp only [visit, GcResult.ok.injEq, Prod.mk.injEq] at h
      refine ⟨fun _ => h.1.symm, ?_, ?_⟩
      · intro q hq
        cases hq
      · intro q hq
        cases hq
    | some p =>
      simp only [wf_val] at hwf
      refine ⟨?_, ?_, ?_⟩
      · intro hc
        cases hc
      · intro q hq hqL
        injection hq with he
        subst he
        have hsemi : semi_space_contains st.semi p = true := semi_contains_of_L hInv hqL
        obtain ⟨w0, st0, hfwd, hstep, hInv0, hmo, hnc, hmem0, hge0, hlt0⟩ :=
          forward_spec hInv hqL
        have hres : visit (fuel + 1) st (some p) = .ok (some w0, st0) := by
          unfold visit
          rw [if_pos hsemi, hfwd]
        rw [hres] at h
        simp only [GcResult.ok.injEq, Prod.mk.injEq] at h
        obtain ⟨hw, hst⟩ := h
        exact ⟨w0, hw.symm, hst ▸ hmem0⟩
      · intro q hq hqL
        injection hq with he
        subst he
        have hLa : p ∈ G.largeAddrs := by
          rcases hwf with hL | hLa
          · exact absurd hL hqL
          · exact hLa
        have hsemi : ¬ semi_space_contains st.semi p = true := by
          rw [semi_contains_not_of_large hInv hLa]
          simp
        have hlarge : large_object_space_contains st.large p = true :=
          (large_contains_iff hInv p).mpr hLa
        by_cases hmk : p ∈ st.large.marked
        · have hcopy : large_object_space_copy st.large p = (false, st.large) := by
            unfold large_object_space_copy
            rw [if_pos hmk]
          have hres : visit (fuel + 1) st (some p) = .ok (some p, st) := by
            unfold visit
            rw [if_neg hsemi, if_pos hlarge, hcopy]
            rfl
          rw [hres] at h
          simp only [GcResult.ok.injEq, Prod.mk.injEq] at h
          exact h.1.symm
        · have hcopy : large_object_space_copy st.large p =
              (true, { st.large with marked := p :: st.large.marked }) := by
            unfold large_object_space_copy
            rw [if_neg hmk]
          cases hscan : scan fuel
              { st with large := { st.large with marked := p :: st.large.marked } } p with
          | ok pr =>
            obtain ⟨g1, st2⟩ := pr
            have hres : visit (fuel + 1) st (some p) = .ok (some p, st2) := by
              unfold visit
              rw [if_neg hsemi, if_pos hlarge, hcopy]
              simp only
              rw [hscan]
              rfl
            rw [hres] at h
            simp only [GcResult.ok.injEq, Prod.mk.injEq] at h
            exact h.1.symm
          | abort k =>
            have hres : visit (fuel + 1) st (some p) = .abort k := by
              unfold visit
              rw [if_neg hsemi, if_pos hlarge, hcopy]
              simp only
              rw [hscan]
              rfl
            rw [hres] at h
            cases h
          | out_of_fuel =>
            have hres : visit (fuel + 1) st (some p) = .out_of_fuel := by
              unfold visit
              rw [if_neg hsemi, if_pos hlarge, hcopy]
              simp only
              rw [hscan]
              rfl
            rw [hres] at h
            cases h

/-- Specification of one pass over the root list: the invariant and chain
facts hold, the list keeps its shape, and each slot is rewritten as `visit`
dictates — population referents to their forwarding address, everything else
unchanged. -/
def roots_post (G : Geo) (st : St) (vfuel : Nat) (roots : List (Option Nat)) :
    GcResult (List (Option Nat) × St) → Prop
  | .ok (roots1, st1) => Step G st st1 ∧ Inv G st1 ∧
      mem_outside G (fun _ => False) st st1 ∧ new_copies G st st1 ∧
      roots1.length = roots.length ∧
      (∀ (k q : Nat), roots[k]? = some (some q) → q ∈ G.L →
        ∃ u, roots1[k]? = some (some u) ∧ st1.mem q = some (.fwd u)) ∧
      (∀ (k q : Nat), roots[k]? = some (some q) → q ∉ G.L → roots1[k]? = some (some q)) ∧
      (∀ k : Nat, roots[k]? = some none → roots1[k]? = some none)
  | .abort _ => False
  | .out_of_fuel => (G.M + 3) * unmarked_count st < vfuel → False

theorem visit_roots_spec (G : Geo) (vfuel : Nat) :
    ∀ roots st, Inv G st → (∀ v ∈ roots, wf_val G v) →
      roots_post G st vfuel roots (visit_roots vfuel st roots) := by
  intro roots
  induction roots with
  | nil =>
    intro st hInv hall
    simp only [visit_roots, roots_post]
    refine ⟨step_refl G st, hInv, mem_outside_refl _ _ _, new_copies_refl _ _, by trivial,
      ?_, ?_, ?_⟩
    · intro k q hk
      simp at hk
    · intro k q hk
      simp at hk
    · intro k hk
      simp at hk
  | cons v rest ih =>
    intro st hInv hall
    have hwv : wf_val G v := hall v (List.mem_cons_self _ _)
    have hpostV := (gc_masters G vfuel).1 st v hInv hwv
    cases hv : visit vfuel st v with
    | ok pr =>
      obtain ⟨w, st1⟩ := pr
      rw [hv] at hpostV
      simp only [visit_post] at hpostV
      obtain ⟨hstep1, hInv1, hmo1, hnc1⟩ := hpostV
      have hval := visit_val hInv hwv hv
      have hrest : ∀ v1 ∈ rest, wf_val G v1 :=
        fun v1 hv1 => hall v1 (List.mem_cons_of_mem _ hv1)
      have hpostR := ih st1 hInv1 hrest
      cases hr : visit_roots vfuel st1 rest with
      | ok pr2 =>
        obtain ⟨ws, st2⟩ := pr2
        rw [hr] at hpostR
        simp only [roots_post] at hpostR
        obtain ⟨hstep2, hInv2, hmo2, hnc2, hlen2, htabL, htabNL, htabN⟩ := hpostR
        have hres : visit_roots vfuel st (v :: rest) = .ok (w :: ws, st2) := by
          simp only [visit_roots, hv, hr]
        rw [hres]
        simp only [roots_post]
        refine ⟨step_trans hstep1 hstep2, hInv2, ?_, ?_, by simp [hlen2], ?_, ?_, ?_⟩
        · exact mem_outside_mono
            (mem_outside_trans hmo1 hmo2 hstep1.hp_mono hstep2.hp_mono hstep1.marks_mono)
            (fun x hx => hx.elim (fun hf => hf) (fun hf => hf))
        · exact new_copies_trans hInv hnc1 hnc2 hmo2 (fun x hx => hx.elim)
        · intro k q hk hqL
          cases k with
          | zero =>
            simp only [List.getElem?_cons_zero, Option.some.injEq] at hk
            obtain ⟨u, hwu, hfw1⟩ := hval.2.1 q hk hqL
            refine ⟨u, ?_, hstep2.fwd_stable q hqL u hfw1⟩
            rw [hwu]
            simp
          | succ k =>
            simp only [List.getElem?_cons_succ] at hk
            obtain ⟨u, hwu, hfw2⟩ := htabL k q hk hqL
            exact ⟨u, by simpa using hwu, hfw2⟩
        · intro k q hk hqL
          cases k with
          | zero =>
            simp only [List.getElem?_cons_zero, Option.some.injEq] at hk
            have := hval.2.2 q hk hqL
            rw [this]
            simp
          | succ k =>
            simp only [List.getElem?_cons_succ] at hk
            have := htabNL k q hk hqL
            simpa using this
        · intro k hk
          cases k with
          | zero =>
            simp only [List.getElem?_cons_zero, Option.some.injEq] at hk
            have := hval.1 hk
            rw [this]
            simp
          | succ k =>
            simp only [List.getElem?_cons_succ] at hk
            have := htabN k hk
            simpa using this
      | abort k2 =>
        rw [hr] at hpostR
        simp only [roots_post] at hpostR
      | out_of_fuel =>
        rw [hr] at hpostR
        simp only [roots_post] at hpostR
        have hres : visit_roots vfuel st (v :: rest) = .out_of_fuel := by
          simp only [visit_roots, hv, hr]
        rw [hres]
        simp only [roots_post]
        intro hb
        apply hpostR
        have hUm := hstep1.unmarked_mono
        have hmul : (G.M + 3) * unmarked_count st1 ≤ (G.M + 3) * unmarked_count st :=
          Nat.mul_le_mul_left _ hUm
        omega
    | abort k2 =>
      rw [hv] at hpostV
      simp only [visit_post] at hpostV
    | out_of_fuel =>
      rw [hv] at hpostV
      simp only [visit_post] at hpostV
      have hres : visit_roots vfuel st (v :: rest) = .out_of_fuel := by
        simp only [visit_roots, hv]
      rw [hres]
      simp only [roots_post]
      exact hpostV


/-! ### Well-formed pre-collection heaps -/

/-- A memory cell holding a well-formed unforwarded object of the cycle:
reference fields are population values and number at most `G.M`. -/
def cell_obj_wf (G : Geo) (c : Option Cell) : Prop :=
  match c with
  | some (.obj o) => (∀ v ∈ o.fields, wf_val G v) ∧ o.fields.length ≤ G.M
  | _ => False

instance cell_obj_wf_dec (G : Geo) : (c : Option Cell) → Decidable (cell_obj_wf G c)
  | none => isFalse (fun h => h)
  | some (.fwd _) => isFalse (fun h => h)
  | some (.obj o) =>
      inferInstanceAs (Decidable ((∀ v ∈ o.fields, wf_val G v) ∧ o.fields.length ≤ G.M))

/-- Decidable well-formedness of a pre-collection heap over the population
`G`: the fromspace objects sit in the lower half with the bump pointer at or
below the midpoint (none forwarded yet), the large objects sit below the
mapping, and the root slots hold population values. -/
def wf_heap (G : Geo) (roots : List (Option Nat)) (st : St) : Prop :=
  G.L.Nodup ∧
  (∀ a ∈ G.L, st.semi.base ≤ a ∧ a < split_of st.semi) ∧
  (∀ a ∈ G.L, cell_obj_wf G (st.mem a)) ∧
  st.semi.hp ≤ split_of st.semi ∧
  st.large.objects = G.larges ∧
  (∀ p ∈ G.largeAddrs, p < st.semi.base) ∧
  (∀ p ∈ G.largeAddrs, cell_obj_wf G (st.mem p)) ∧
  (∀ v ∈ roots, wf_val G v)

instance wf_heap_dec (G : Geo) (roots : List (Option Nat)) (st : St) :
    Decidable (wf_heap G roots st) := by
  unfold wf_heap
  infer_instance

/-- The state `collect` builds before visiting the roots — fresh large-object
cycle, flipped semi-space — satisfies the collection invariant, and the flip
moved the active tospace to the upper half. -/
theorem collect_setup {G : Geo} {roots : List (Option Nat)} {st : St}
    (hwf : wf_heap G roots st) :
    flip st.semi =
      { st.semi with
          hp := split_of st.semi,
          limit := st.semi.base + st.semi.size,
          count := st.semi.count + 1 } ∧
    Inv G { st with
             large := large_object_space_start_gc st.large,
             semi := flip st.semi } := by
  obtain ⟨hnd, hrange, hcells, hhp, hobj, hlow, hlcells, hroots⟩ := hwf
  have hflip : flip st.semi =
      { st.semi with
          hp := split_of st.semi,
          limit := st.semi.base + st.semi.size,
          count := st.semi.count + 1 } := by
    unfold split_of at hhp ⊢
    unfold flip
    rw [if_pos hhp]
  have hmem1 : ∀ x, ({ st with
      large := large_object_space_start_gc st.large,
      semi := flip st.semi } : St).mem x = st.mem x := fun _ => rfl
  refine ⟨hflip, ?_⟩
  refine ⟨hnd, ?_, ?_, ?_, ?_, ?_, ?_, ?_, ?_⟩
  · intro a ha
    show (flip st.semi).base ≤ a ∧ a < split_of (flip st.semi)
    rw [hflip]
    exact hrange a ha
  · intro a ha
    rw [hmem1 a]
    intro hn
    have hwfa := hcells a ha
    rw [hn] at hwfa
    exact hwfa
  · intro a ha o ho
    rw [hmem1 a] at ho
    have hwfa := hcells a ha
    rw [ho] at hwfa
    exact hwfa
  · intro a ha w hw
    rw [hmem1 a] at hw
    have hwfa := hcells a ha
    rw [hw] at hwfa
    exact hwfa.elim
  · show split_of (flip st.semi) ≤ (flip st.semi).hp
    rw [hflip]
    exact le_refl _
  · exact hobj
  · intro p hp
    show p < (flip st.semi).base
    rw [hflip]
    exact hlow p hp
  · intro p hp
    have hwfp := hlcells p hp
    cases hc : st.mem p with
    | none =>
      rw [hc] at hwfp
      exact hwfp.elim
    | some c =>
      cases c with
      | fwd w =>
        rw [hc] at hwfp
        exact hwfp.elim
      | obj o =>
        rw [hc] at hwfp
        exact ⟨o, rfl, hwfp.2, fun _ => hwfp.1⟩

/-- `semi_space_steal_pages` never touches `hp`, `base`, `size` or the
generation counter. -/
theorem steal_same (ps n : Nat) (sp : semi_space) :
    (semi_space_steal_pages ps sp n).2.base = sp.base ∧
    (semi_space_steal_pages ps sp n).2.size = sp.size ∧
    (semi_space_steal_pages ps sp n).2.hp = sp.hp ∧
    (semi_space_steal_pages ps sp n).2.count = sp.count := by
  unfold semi_space_steal_pages
  by_cases hc : usub sp.limit sp.hp < round_even n * ps % W / 2
  · rw [if_pos hc]
    exact ⟨rfl, rfl, rfl, rfl⟩
  · rw [if_neg hc]
    exact ⟨rfl, rfl, rfl, rfl⟩

/-- `semi_space_steal_pages` preserves the capacity invariant (either
outcome), as long as `limit` is a real address. -/
theorem steal_capacity (ps n : Nat) {sp : semi_space} (hcap : capacity_inv sp)
    (hW : sp.limit < W) : capacity_inv (semi_space_steal_pages ps sp n).2 := by
  obtain ⟨h1, h2, h3⟩ := hcap
  unfold semi_space_steal_pages
  by_cases hc : usub sp.limit sp.hp < round_even n * ps % W / 2
  · rw [if_pos hc]
    exact ⟨h1, h2, h3⟩
  · rw [if_neg hc]
    rw [usub_of_le h2 hW] at hc
    have hhle : round_even n * ps % W / 2 ≤ sp.limit := by omega
    refine ⟨h1, ?_, ?_⟩
    · show sp.hp ≤ usub sp.limit (round_even n * ps % W / 2)
      rw [usub_of_le hhle hW]
      omega
    · show usub sp.limit (round_even n * ps % W / 2) ≤ sp.base + sp.size
      rw [usub_of_le hhle hW]
      omega


/-- Full specification of a successful collection from a well-formed heap with
sufficient fuel: the collection returns, the root slots are rewritten exactly
as forwarding dictates, the semi-space geometry survives with the generation
counter bumped, and the capacity invariant holds whenever the live data fits
in the half-space and the mapping is a real address range. -/
theorem collect_spec {G : Geo} {roots : List (Option Nat)} {st : St}
    (hwf : wf_heap G roots st) {lfuel vfuel : Nat}
    (hl : G.L.length < lfuel)
    (hv : (G.M + 3) * G.larges.length + G.M + 2 < vfuel) :
    ∃ roots1 st1, collect lfuel vfuel roots st = .ok (roots1, st1) ∧
      roots1.length = roots.length ∧
      (∀ (k q : Nat), roots[k]? = some (some q) → q ∈ G.L →
        ∃ u, roots1[k]? = some (some u) ∧ st1.mem q = some (.fwd u)) ∧
      (∀ (k q : Nat), roots[k]? = some (some q) → q ∉ G.L → roots1[k]? = some (some q)) ∧
      (∀ k : Nat, roots[k]? = some none → roots1[k]? = some none) ∧
      st1.semi.base = st.semi.base ∧
      st1.semi.size = st.semi.size ∧
      st1.semi.count = st.semi.count + 1 ∧
      (from_bytes G.L st ≤ st.semi.size / 2 → st.semi.base + st.semi.size < W →
        capacity_inv st1.semi) := by
  obtain ⟨hflip, hInv0⟩ := collect_setup hwf
  have hroots : ∀ v ∈ roots, wf_val G v := hwf.2.2.2.2.2.2.2
  have hR := visit_roots_spec G vfuel roots
      { st with large := large_object_space_start_gc st.large, semi := flip st.semi }
      hInv0 hroots
  have hU0 :
      unmarked_count { st with large := large_object_space_start_gc st.large, semi := flip st.semi } ≤ G.larges.length := by
    unfold unmarked_count
    have hob : ({ st with large := large_object_space_start_gc st.large, semi := flip st.semi } : St).large.objects = G.larges :=
      hwf.2.2.2.2.1
    rw [hob]
    exact List.length_filter_le _ _
  have hUf0 :
      unforwarded_count G.L { st with large := large_object_space_start_gc st.large, semi := flip st.semi } ≤ G.L.length := by
    unfold unforwarded_count
    exact List.length_filter_le _ _
  cases hvr : visit_roots vfuel
      { st with large := large_object_space_start_gc st.large, semi := flip st.semi }
      roots with
  | out_of_fuel =>
    rw [hvr] at hR
    simp only [roots_post] at hR
    have hmul :
        (G.M + 3) * unmarked_count { st with large := large_object_space_start_gc st.large, semi := flip st.semi } ≤
          (G.M + 3) * G.larges.length := Nat.mul_le_mul_left _ hU0
    exact absurd (by omega) hR
  | abort k =>
    rw [hvr] at hR
    simp only [roots_post] at hR
  | ok pr =>
    obtain ⟨roots1, st2⟩ := pr
    rw [hvr] at hR
    simp only [roots_post] at hR
    obtain ⟨hstep1, hInv2, hmo1, hnc1, hlen1, htabL, htabNL, htabN⟩ := hR
    obtain ⟨n, hlay2, hcnt⟩ := hnc1
    have hge2 : split_of st2.semi ≤ (flip st.semi).hp := by
      rw [hstep1.split_eq]
      exact hInv0.hp_ge
    have hlay2' : Layout G st2 (flip st.semi).hp st2.semi.hp n := hlay2
    have hLoop := scan_loop_spec G vfuel lfuel st2 ((flip st.semi).hp) n hInv2 hlay2' hge2
    cases hsl : scan_loop lfuel vfuel st2 (flip st.semi).hp with
    | out_of_fuel =>
      rw [hsl] at hLoop
      simp only [loop_post] at hLoop
      refine absurd ⟨?_, ?_⟩ hLoop
      · omega
      · have hU2 := hstep1.unmarked_mono
        have hmul : (G.M + 3) * unmarked_count st2 ≤ (G.M + 3) * G.larges.length :=
          Nat.mul_le_mul_left _ (le_trans hU2 hU0)
        omega
    | abort k =>
      rw [hsl] at hLoop
      simp only [loop_post] at hLoop
    | ok st3 =>
      rw [hsl] at hLoop
      simp only [loop_post] at hLoop
      obtain ⟨hstep2, hInv3⟩ := hLoop
      have hb3 : st3.semi.base = st.semi.base := by
        rw [hstep2.base_eq, hstep1.base_eq]
        show (flip st.semi).base = st.semi.base
        rw [hflip]
      have hsz3 : st3.semi.size = st.semi.size := by
        rw [hstep2.size_eq, hstep1.size_eq]
        show (flip st.semi).size = st.semi.size
        rw [hflip]
      have hcnt3 : st3.semi.count = st.semi.count + 1 := by
        rw [hstep2.count_eq, hstep1.count_eq]
        show (flip st.semi).count = st.semi.count + 1
        rw [hflip]
      have hl3 : st3.semi.limit = st.semi.base + st.semi.size := by
        rw [hstep2.limit_eq, hstep1.limit_eq]
        show (flip st.semi).limit = st.semi.base + st.semi.size
        rw [hflip]
      have hs := steal_same page_size
        (large_object_space_finish_gc st3.large).live_pages_at_last_collection st3.semi
      have hres : collect lfuel vfuel roots st = .ok (roots1,
          { st3 with
            large := large_object_space_finish_gc st3.large,
            semi := (semi_space_steal_pages page_size st3.semi
              (large_object_space_finish_gc st3.large).live_pages_at_last_collection).2 }) := by
        simp only [collect, hvr, hsl]
      refine ⟨roots1, _, hres, hlen1, ?_, ?_, ?_, ?_, ?_, ?_, ?_⟩
      · intro k q hk hqL
        obtain ⟨u, hr1, hfw⟩ := htabL k q hk hqL
        exact ⟨u, hr1, hstep2.fwd_stable q hqL u hfw⟩
      · exact htabNL
      · exact htabN
      · show (semi_space_steal_pages page_size st3.semi
            (large_object_space_finish_gc st3.large).live_pages_at_last_collection).2.base =
          st.semi.base
        rw [hs.1, hb3]
      · show (semi_space_steal_pages page_size st3.semi
            (large_object_space_finish_gc st3.large).live_pages_at_last_collection).2.size =
          st.semi.size
        rw [hs.2.1, hsz3]
      · show (semi_space_steal_pages page_size st3.semi
            (large_object_space_finish_gc st3.large).live_pages_at_last_collection).2.count =
          st.semi.count + 1
        rw [hs.2.2.2, hcnt3]
      · intro hfb hW
        have hpot := (step_trans hstep1 hstep2).potential
        have hfb0 :
            from_bytes G.L { st with large := large_object_space_start_gc st.large, semi := flip st.semi } =
              from_bytes G.L st :=
          from_bytes_congr (fun _ _ => rfl)
        have hhp0 :
            ({ st with large := large_object_space_start_gc st.large, semi := flip st.semi } : St).semi.hp = split_of st.semi := by
          show (flip st.semi).hp = split_of st.semi
          rw [hflip]
        rw [hhp0, hfb0] at hpot
        have h1 := hstep1.hp_mono
        have h2 := hstep2.hp_mono
        rw [hhp0] at h1
        have hcap3 : capacity_inv st3.semi := by
          refine ⟨?_, ?_, ?_⟩
          · rw [hb3]
            unfold split_of at h1
            omega
          · rw [hl3]
            unfold split_of at hpot
            omega
          · rw [hl3, hb3, hsz3]
        have hW3 : st3.semi.limit < W := by
          rw [hl3]
          exact hW
        exact steal_capacity page_size _ hcap3 hW3


/-! ### The remaining claims -/

/-- A two-root example heap: one eight-byte object at address 0 of a
128-byte mapping, referenced by both root slots. -/
def cMem : Mem := fun a =>
  if a = 0 then some (.obj { kind := 7, fields := [], pad := 0 }) else none

/-- The example collector state over `cMem`. -/
def cSt : St :=
  { semi := { hp := 8, limit := 64, base := 0, size := 128, count := 0 },
    mem := cMem,
    large := { objects := [], marked := [], live_pages_at_last_collection := 0 } }

/-- The example population: the single object, no large objects, one field
at most. -/
def cG : Geo := { L := [0], larges := [], M := 1 }

/-- The example roots: two slots referencing the same object. -/
def cRoots : List (Option Nat) := [some 0, some 0]

/-- C1: identity preservation — `forward` is memoized via the header
overwrite: the first forward of an object copies it to `hp` and writes the
copy's address into the original's header, and every later forward of the
same original returns that recorded address without copying or changing
anything, so no object is copied twice in one cycle; consequently after
`collect` any two root slots that referenced the same fromspace object hold
the same tospace address. -/
theorem c1_identity_preservation {G : Geo} {roots : List (Option Nat)} {st : St}
    (hwf : wf_heap G roots st) (lfuel vfuel : Nat) (hl : G.L.length < lfuel)
    (hv : (G.M + 3) * G.larges.length + G.M + 2 < vfuel) :
    (∀ (st2 : St) (p : Nat) (o : Obj), st2.mem p = some (.obj o) →
      forward st2 p = some (st2.semi.hp, (copy st2 o p).2) ∧
      (copy st2 o p).2.mem p = some (.fwd st2.semi.hp)) ∧
    (∀ (st2 : St) (p w : Nat), st2.mem p = some (.fwd w) →
      forward st2 p = some (w, st2)) ∧
    ∃ roots1 st1, collect lfuel vfuel roots st = .ok (roots1, st1) ∧
      ∀ (j k q : Nat), roots[j]? = some (some q) → roots[k]? = some (some q) →
        q ∈ G.L →
        ∃ u, roots1[j]? = some (some u) ∧ roots1[k]? = some (some u) ∧
          st1.mem q = some (.fwd u) := by
  refine ⟨?_, ?_, ?_⟩
  · intro st2 p o ho
    constructor
    · unfold forward
      rw [ho]
      rfl
    · rw [copy_mem_at, if_pos rfl]
  · intro st2 p w hw
    unfold forward
    rw [hw]
  · obtain ⟨roots1, st1, hc, hlen, htabL, _, _, _, _, _, _⟩ := collect_spec hwf hl hv
    refine ⟨roots1, st1, hc, ?_⟩
    intro j k q hj hk hqL
    obtain ⟨u, hju, hmu⟩ := htabL j q hj hqL
    obtain ⟨u2, hku, hmu2⟩ := htabL k q hk hqL
    have he : u2 = u := by
      rw [hmu] at hmu2
      injection hmu2 with h3
      injection h3 with h4
      exact h4.symm
    exact ⟨u, hju, he ▸ hku, hmu⟩

theorem c1_identity_preservation_witness :
    ∃ roots1 st1, collect 2 4 cRoots cSt = .ok (roots1, st1) ∧
      ∀ (j k q : Nat), cRoots[j]? = some (some q) → cRoots[k]? = some (some q) →
        q ∈ cG.L →
        ∃ u, roots1[j]? = some (some u) ∧ roots1[k]? = some (some u) ∧
          st1.mem q = some (.fwd u) :=
  (@c1_identity_preservation cG cRoots cSt (by decide) 2 4 (by decide) (by decide)).2.2

/-- C2: termination — from every well-formed finite heap, cyclic or acyclic,
`collect` terminates with a result within explicit bounds computed from the
object counts: the scan loop runs at most once per live object (`hp` grows
only when an uncopied object is copied, copying being memoized by the header
overwrite, and the grey cursor only advances), and visiting recurses at most
once per large object. -/
theorem c2_termination {G : Geo} {roots : List (Option Nat)} {st : St}
    (hwf : wf_heap G roots st) :
    ∃ roots1 st1,
      collect (G.L.length + 1) ((G.M + 3) * G.larges.length + G.M + 3) roots st =
        .ok (roots1, st1) := by
  obtain ⟨roots1, st1, hc, _⟩ :=
    @collect_spec G roots st hwf (G.L.length + 1)
      ((G.M + 3) * G.larges.length + G.M + 3) (by omega) (by omega)
  exact ⟨roots1, st1, hc⟩

theorem c2_termination_witness :
    ∃ roots1 st1,
      collect (cG.L.length + 1) ((cG.M + 3) * cG.larges.length + cG.M + 3) cRoots cSt =
        .ok (roots1, st1) :=
  @c2_termination cG cRoots cSt (by decide)

/-- C6: heap exhaustion is fatal — `collect_for_alloc` first runs a full
collection and then aborts fatally ("ran out of space") exactly when the
now-current tospace's free capacity `limit - hp` is smaller than the
requested bytes; otherwise it returns the collected state. -/
theorem c6_exhaustion_fatal {G : Geo} {roots : List (Option Nat)} {st : St}
    (hwf : wf_heap G roots st) (lfuel vfuel : Nat) (hl : G.L.length < lfuel)
    (hv : (G.M + 3) * G.larges.length + G.M + 2 < vfuel) (bytes : Nat) :
    ∃ roots1 st1, collect lfuel vfuel roots st = .ok (roots1, st1) ∧
      (collect_for_alloc lfuel vfuel roots st bytes = .abort .out_of_memory ↔
        usub st1.semi.limit st1.semi.hp < bytes) ∧
      (¬ usub st1.semi.limit st1.semi.hp < bytes →
        collect_for_alloc lfuel vfuel roots st bytes = .ok (roots1, st1)) := by
  obtain ⟨roots1, st1, hc, _⟩ := collect_spec hwf hl hv
  have hcfa : collect_for_alloc lfuel vfuel roots st bytes =
      if usub st1.semi.limit st1.semi.hp < bytes then .abort .out_of_memory
      else .ok (roots1, st1) := by
    simp only [collect_for_alloc, hc]
  refine ⟨roots1, st1, hc, ?_, ?_⟩
  · constructor
    · intro hab
      by_contra hnc
      rw [hcfa, if_neg hnc] at hab
      cases hab
    · intro h
      rw [hcfa, if_pos h]
  · intro h
    rw [hcfa, if_neg h]

theorem c6_exhaustion_fatal_witness :
    ∃ roots1 st1, collect 2 4 cRoots cSt = .ok (roots1, st1) ∧
      (collect_for_alloc 2 4 cRoots cSt 1000 = .abort .out_of_memory ↔
        usub st1.semi.limit st1.semi.hp < 1000) ∧
      (¬ usub st1.semi.limit st1.semi.hp < 1000 →
        collect_for_alloc 2 4 cRoots cSt 1000 = .ok (roots1, st1)) :=
  @c6_exhaustion_fatal cG cRoots cSt (by decide) 2 4 (by decide) (by decide) 1000

/-- C7: large-object allocation protocol — `allocate_large` converts the size
to a page count and attempts a budget steal from the semi-space; on refusal
it runs a full collection and retries the steal exactly once, a second
refusal being the fatal "ran out of space" abort; once the budget is secured
it requests pages from the fast reuse path and then the slow acquisition
path, and both returning null despite the reserved budget is a fatal abort
distinguished from plain out-of-memory. -/
theorem c7_allocate_large_protocol (lfuel vfuel : Nat)
    (alloc_fast alloc_slow : Nat → Option Nat) (roots roots1 : List (Option Nat))
    (st st1 : St) (kind size : Nat) :
    (∀ semi1,
      semi_space_steal_pages page_size st.semi (large_object_space_npages size) =
        (true, semi1) →
      allocate_large lfuel vfuel alloc_fast alloc_slow roots st kind size =
        allocate_large_pages alloc_fast alloc_slow roots { st with semi := semi1 }
          kind (large_object_space_npages size)) ∧
    (∀ semi1,
      semi_space_steal_pages page_size st.semi (large_object_space_npages size) =
        (false, semi1) →
      collect lfuel vfuel roots st = .ok (roots1, st1) →
      ∀ semi2,
        semi_space_steal_pages page_size st1.semi (large_object_space_npages size) =
          (false, semi2) →
        allocate_large lfuel vfuel alloc_fast alloc_slow roots st kind size =
          .abort .out_of_memory) ∧
    (∀ semi1,
      semi_space_steal_pages page_size st.semi (large_object_space_npages size) =
        (false, semi1) →
      collect lfuel vfuel roots st = .ok (roots1, st1) →
      ∀ semi2,
        semi_space_steal_pages page_size st1.semi (large_object_space_npages size) =
          (true, semi2) →
        allocate_large lfuel vfuel alloc_fast alloc_slow roots st kind size =
          allocate_large_pages alloc_fast alloc_slow roots1 { st1 with semi := semi2 }
            kind (large_object_space_npages size)) ∧
    (∀ (st2 : St) (npages ret : Nat), alloc_fast npages = some ret →
      allocate_large_pages alloc_fast alloc_slow roots st2 kind npages =
        .ok (ret, roots, write_large_header st2 ret kind npages)) ∧
    (∀ (st2 : St) (npages ret : Nat), alloc_fast npages = none →
      alloc_slow npages = some ret →
      allocate_large_pages alloc_fast alloc_slow roots st2 kind npages =
        .ok (ret, roots, write_large_header st2 ret kind npages)) ∧
    (∀ (st2 : St) (npages : Nat), alloc_fast npages = none → alloc_slow npages = none →
      allocate_large_pages alloc_fast alloc_slow roots st2 kind npages =
        .abort .alloc_invariant ∧
      abort_kind.alloc_invariant ≠ abort_kind.out_of_memory) := by
  refine ⟨?_, ?_, ?_, ?_, ?_, ?_⟩
  · intro semi1 hsteal
    unfold allocate_large
    rw [hsteal]
  · intro semi1 hsteal hcol semi2 hsteal2
    unfold allocate_large
    rw [hsteal]
    simp only
    rw [hcol]
    simp only
    rw [hsteal2]
  · intro semi1 hsteal hcol semi2 hsteal2
    unfold allocate_large
    rw [hsteal]
    simp only
    rw [hcol]
    simp only
    rw [hsteal2]
  · intro st2 npages ret hf
    unfold allocate_large_pages
    rw [hf]
  · intro st2 npages ret hf hs
    unfold allocate_large_pages
    rw [hf, hs]
  · intro st2 npages hf hs
    constructor
    · unfold allocate_large_pages
      rw [hf, hs]
    · decide

theorem c7_allocate_large_protocol_witness :
    allocate_large_pages (fun _ => none) (fun _ => none) cRoots cSt 1 2 =
      .abort .alloc_invariant ∧
    abort_kind.alloc_invariant ≠ abort_kind.out_of_memory :=
  (c7_allocate_large_protocol 0 0 (fun _ => none) (fun _ => none) cRoots cRoots cSt cSt
    1 8192).2.2.2.2.2 cSt 2 rfl rfl

/-- C8: capacity invariant — `base ≤ hp ≤ limit ≤ base + size` holds after
`initialize_semi_space` and is preserved by `flip`, by
`semi_space_steal_pages` (either outcome), by every committed bump
allocation of `allocate`, and by a full `collect` whenever the live data
fits the half-space and the mapping is a real address range. -/
theorem c8_capacity_invariant :
    (∀ mem size, capacity_inv (initialize_semi_space mem size)) ∧
    (∀ sp : semi_space, capacity_inv sp → capacity_inv (flip sp)) ∧
    (∀ (ps n : Nat) (sp : semi_space), capacity_inv sp → sp.limit < W →
      capacity_inv (semi_space_steal_pages ps sp n).2) ∧
    (∀ (sp : semi_space) (kind size : Nat) (eff : alloc_effects), capacity_inv sp →
      allocate_step sp kind size = .fits eff →
      capacity_inv { sp with hp := eff.new_hp }) ∧
    (∀ (G : Geo) (roots : List (Option Nat)) (st : St) (lfuel vfuel : Nat),
      wf_heap G roots st → G.L.length < lfuel →
      (G.M + 3) * G.larges.length + G.M + 2 < vfuel →
      from_bytes G.L st ≤ st.semi.size / 2 → st.semi.base + st.semi.size < W →
      ∃ roots1 st1, collect lfuel vfuel roots st = .ok (roots1, st1) ∧
        capacity_inv st1.semi) := by
  refine ⟨?_, ?_, ?_, ?_, ?_⟩
  · intro mem size
    unfold initialize_semi_space
    simp only [flip]
    split
    · refine ⟨?_, ?_, ?_⟩
      · show mem ≤ mem + size / 2
        omega
      · show mem + size / 2 ≤ mem + size
        omega
      · show mem + size ≤ mem + size
        omega
    · next hcond => exact absurd (show mem ≤ mem + size / 2 by omega) hcond
  · intro sp hcap
    obtain ⟨h1, h2, h3⟩ := hcap
    simp only [flip]
    split
    · refine ⟨?_, ?_, ?_⟩
      · show sp.base ≤ sp.base + sp.size / 2
        omega
      · show sp.base + sp.size / 2 ≤ sp.base + sp.size
        omega
      · show sp.base + sp.size ≤ sp.base + sp.size
        omega
    · refine ⟨?_, ?_, ?_⟩
      · show sp.base ≤ sp.base
        omega
      · show sp.base ≤ sp.base + sp.size / 2
        omega
      · show sp.base + sp.size / 2 ≤ sp.base + sp.size
        omega
  · exact fun ps n sp hcap hW => steal_capacity ps n hcap hW
  · intro sp kind size eff hcap hfits
    obtain ⟨h1, h2, h3⟩ := hcap
    unfold allocate_step at hfits
    by_cases hc : sp.limit < align_up (sp.hp + size) ALIGNMENT
    · rw [if_pos hc] at hfits
      cases hfits
    · rw [if_neg hc] at hfits
      injection hfits with he
      subst he
      have h8 : (0 : Nat) < ALIGNMENT := by decide
      have hle := le_align_up (sp.hp + size) h8
      refine ⟨?_, ?_, ?_⟩
      · show sp.base ≤ align_up (sp.hp + size) ALIGNMENT
        omega
      · show align_up (sp.hp + size) ALIGNMENT ≤ sp.limit
        omega
      · show sp.limit ≤ sp.base + sp.size
        omega
  · intro G roots st lfuel vfuel hwf hl hv hfb hW
    obtain ⟨roots1, st1, hc, _, _, _, _, _, _, _, hcap⟩ := collect_spec hwf hl hv
    exact ⟨roots1, st1, hc, hcap hfb hW⟩

theorem c8_capacity_invariant_witness :
    capacity_inv (initialize_semi_space 0 128) ∧
    capacity_inv (flip cSt.semi) ∧
    capacity_inv (semi_space_steal_pages 4096 cSt.semi 1).2 ∧
    capacity_inv { cSt.semi with hp := 24 } ∧
    (∃ roots1 st1, collect 2 4 cRoots cSt = .ok (roots1, st1) ∧
      capacity_inv st1.semi) :=
  ⟨c8_capacity_invariant.1 0 128,
   c8_capacity_invariant.2.1 cSt.semi (by decide),
   c8_capacity_invariant.2.2.1 4096 1 cSt.semi (by decide) (by decide),
   c8_capacity_invariant.2.2.2.1 cSt.semi 3 16 ⟨8, 24, 8, 3, 16, 8⟩ (by decide)
     (by decide),
   c8_capacity_invariant.2.2.2.2 cG cRoots cSt 2 4 (by decide) (by decide) (by decide)
     (by decide) (by decide)⟩


end Semi
